import Mathlib

/-!
# Wait-free single-producer / single-consumer ring buffer (`spsc.hpp`)

A shallow embedding of the queue of `spsc.hpp`.

* `queue::ptr_size` is `uint32_t`: cursor values are natural numbers below `2 ^ 32`
  and every operation on them is reduced modulo `2 ^ 32`.
* The capacity `C` is a `std::size_t` template argument.  An expression that mixes a
  cursor with `C` is evaluated in `std::size_t`, taken here to be 64 bits wide, and is
  reduced modulo `2 ^ 64`; it is reduced modulo `2 ^ 32` when it is converted back to a
  `ptr`.
* `isfull` is recursive in the source and the recursion need not stop, so it is given a
  recursion budget (`fuel`) and returns `none` when the budget is used up.  Everything
  that calls it passes the budget on.
* Atomic loads and stores are modelled by their sequential meaning (one thread of
  control executes the operations one after another).
-/

/-- The result codes of `spsc.hpp`. -/
inductive queuereturncode where
  | QUEUESUCCESS
  | QUEUEISFULL
  | QUEUEISEMPTY
  | QUEUEFAILURE
  | QUEUEAUTHORITYFAILURE
  | QUEUEARGUMENTFAILURE
  deriving DecidableEq, Repr

namespace queue

open queuereturncode

/-- The two ends of the queue: the tag types `front` and `back`. -/
inductive queue_end where
  | front
  | back
  deriving DecidableEq, Repr

/-- The template template parameter `PP`: which peer-visibility policy is compiled in. -/
inductive policy where
  | plain_pointer
  | caching_pointer
  deriving DecidableEq, Repr

/-- Conversion of a `std::size_t` value to `ptr_size` (`uint32_t`); the argument is the
64-bit value, already reduced modulo `2 ^ 64`. -/
def to_ptr_size (x : Int) : Nat := (x % 2 ^ 32).toNat

/-- The argument `value - C - 1` of the recursive call of `isfull`: computed in
`std::size_t` (modulo `2 ^ 64`), then converted to `ptr_size` by the `ptr` constructor. -/
def shift (C value : Nat) : Nat := to_ptr_size (((value : Int) - (C : Int) - 1) % 2 ^ 64)

/-- The function `isfull<C>(local, remote)`.  The first argument after `C` bounds the
depth of the recursion: `none` means that the budget was used up before the
base case was reached. -/
def isfull (C : Nat) : Nat → Nat → Nat → Option Bool
  | 0, _, _ => none
  | fuel + 1, local_value, remote_value =>
    if local_value ≥ remote_value then
      some (decide ((((remote_value : Int) + (C : Int) - (local_value : Int)) % 2 ^ 64) < 1))
    else
      isfull C fuel (shift C local_value) (shift C remote_value)

/-- The function `isempty<C>(local, remote)`: a subtraction of two `uint32_t`. -/
def isempty (_C : Nat) (local_value remote_value : Nat) : Bool :=
  decide ((((remote_value : Int) - (local_value : Int)) % 2 ^ 32) < 1)

/-- The two overloads of `cannot_exchange_dispatch<C>`, selected by the end that calls. -/
def cannot_exchange_dispatch (C fuel : Nat) : queue_end → Nat → Nat → Option Bool
  | queue_end.front, local_value, remote_value => some (isempty C local_value remote_value)
  | queue_end.back, local_value, remote_value => isfull C fuel local_value remote_value

/-- The structs `caching_pointer` and `plain_pointer`: the cursor `index` of one end and,
under the caching policy, the snapshot `cache` of the other end's cursor.  Under the
plain policy the field `cache` does not exist in the source; here it is carried along
and never read or written. -/
structure pointer where
  index : Nat
  cache : Nat
  deriving DecidableEq, Repr

/-- The struct `spsc<T, C, PP>`; `state` is the array `T state[C]`. -/
structure spsc (T : Type) where
  push_to : pointer
  pop_from : pointer
  state : List T
  deriving DecidableEq, Repr

/-- The two overloads of `unsafe_to_exchange<C>`.  Returns the answer together with
the calling end's `pointer`, whose `cache` the caching overload may have refreshed. -/
def unsafe_to_exchange (pp : policy) (C fuel : Nat) (L : queue_end) (local_index : Nat)
    (loc remote : pointer) : Option (Bool × pointer) :=
  match pp with
  | policy.plain_pointer =>
    let remote_index := remote.index
    (cannot_exchange_dispatch C fuel L local_index remote_index).map (fun r => (r, loc))
  | policy.caching_pointer =>
    match cannot_exchange_dispatch C fuel L local_index loc.cache with
    | none => none
    | some false => some (false, loc)
    | some true =>
      let loc1 : pointer := { loc with cache := remote.index }
      match cannot_exchange_dispatch C fuel L local_index loc1.cache with
      | none => none
      | some true => some (true, loc1)
      | some false => some (false, loc1)

/-- The pointer `&(Q->push_to)` or `&(Q->pop_from)` of an end. -/
def spsc.pointer_of {T : Type} (Q : spsc T) : queue_end → pointer
  | queue_end.back => Q.push_to
  | queue_end.front => Q.pop_from

/-- Writes back the calling end's pointer. -/
def spsc.set_pointer {T : Type} (Q : spsc T) : queue_end → pointer → spsc T
  | queue_end.back, p => { Q with push_to := p }
  | queue_end.front, p => { Q with pop_from := p }

/-- The other end: `L::other`. -/
def queue_end.other : queue_end → queue_end
  | queue_end.back => queue_end.front
  | queue_end.front => queue_end.back

/-- The function `exchange` called through `exchange_at_end<E>`: `local` is the pointer
of the end `E`, `remote` that of the other end.  Returns the code, the queue afterwards
and the contents of `*element` afterwards.  The slot index `local_index % C` is below
`C`, the length of `state`, whenever `C ≥ 1`; `getD` and `set` leave everything
as it is for an index outside the list. -/
def exchange_at_end {T : Type} (pp : policy) (C fuel : Nat) (E : queue_end) (Q : spsc T)
    (element : T) : Option (queuereturncode × spsc T × T) :=
  let loc := Q.pointer_of E
  let remote := Q.pointer_of E.other
  let local_index := loc.index
  match unsafe_to_exchange pp C fuel E local_index loc remote with
  | none => none
  | some (true, loc1) => some (QUEUEFAILURE, Q.set_pointer E loc1, element)
  | some (false, loc1) =>
    let slot := local_index % C
    let state1 := Q.state.set slot element
    let element1 := Q.state.getD slot element
    let loc2 : pointer := { loc1 with index := (local_index + 1) % 2 ^ 32 }
    some (QUEUESUCCESS, { Q.set_pointer E loc2 with state := state1 }, element1)

/-- The function `push`. -/
def push {T : Type} (pp : policy) (C fuel : Nat) (Q : spsc T) (t : T) :
    Option (queuereturncode × spsc T × T) :=
  (exchange_at_end pp C fuel queue_end.back Q t).map
    (fun r => (if r.1 = QUEUESUCCESS then QUEUESUCCESS else QUEUEISFULL, r.2))

/-- The function `pop`. -/
def pop {T : Type} (pp : policy) (C fuel : Nat) (Q : spsc T) (t : T) :
    Option (queuereturncode × spsc T × T) :=
  (exchange_at_end pp C fuel queue_end.front Q t).map
    (fun r => (if r.1 = QUEUESUCCESS then QUEUESUCCESS else QUEUEISEMPTY, r.2))

/-- One call made by the caller: `push(&Q, &t)` or `pop(&Q, &t)`, with the contents
`t` of the caller's location before the call. -/
inductive op (T : Type) where
  | push (t : T)
  | pop (t : T)
  deriving DecidableEq, Repr

/-- Executes one call. -/
def step {T : Type} (pp : policy) (C fuel : Nat) (Q : spsc T) :
    op T → Option (queuereturncode × spsc T × T)
  | op.push t => push pp C fuel Q t
  | op.pop t => pop pp C fuel Q t

/-- Executes calls one after another on one thread.  Returns, for every call, the
code and the contents of the caller's location afterwards, and the final queue. -/
def run {T : Type} (pp : policy) (C fuel : Nat) :
    spsc T → List (op T) → Option (List (queuereturncode × T) × spsc T)
  | Q, [] => some ([], Q)
  | Q, o :: os =>
    match step pp C fuel Q o with
    | none => none
    | some (c, Q1, t1) =>
      match run pp C fuel Q1 os with
      | none => none
      | some (rs, Q2) => some ((c, t1) :: rs, Q2)

/-- A queue whose cursors and snapshots all hold `s`; `init` is the contents of the
(default-initialised) array. -/
def seeded {T : Type} (s : Nat) (init : List T) : spsc T :=
  { push_to := { index := s, cache := s }, pop_from := { index := s, cache := s }, state := init }

/-- A freshly constructed queue: every `value` member starts at `0`. -/
def fresh {T : Type} (init : List T) : spsc T := seeded 0 init

/-- The wrap-aware occupancy `(back - front) mod 2 ^ 32`. -/
def occupancy (back front : Nat) : Nat := (((back : Int) - (front : Int)) % 2 ^ 32).toNat

/-- The occupancy of a queue, from its two real cursors. -/
def spsc.occupancy {T : Type} (Q : spsc T) : Nat :=
  queue.occupancy Q.push_to.index Q.pop_from.index

/-- Well-formedness of a queue of capacity `C`: the cursors are `uint32_t` values, the
array has `C` slots and holds at most `C` elements; under the caching policy each
snapshot is a `uint32_t` value that its owner's peer cursor has held and that is not
further behind than the elements in flight allow. -/
def valid {T : Type} (pp : policy) (C : Nat) (Q : spsc T) : Prop :=
  Q.push_to.index < 2 ^ 32 ∧ Q.pop_from.index < 2 ^ 32 ∧ Q.state.length = C ∧
  occupancy Q.push_to.index Q.pop_from.index ≤ C ∧
  (pp = policy.caching_pointer →
    Q.push_to.cache < 2 ^ 32 ∧ Q.pop_from.cache < 2 ^ 32 ∧
    occupancy Q.push_to.index Q.push_to.cache ≤ C ∧
    occupancy Q.pop_from.index Q.push_to.cache ≤ occupancy Q.push_to.index Q.push_to.cache ∧
    occupancy Q.pop_from.cache Q.pop_from.index ≤ occupancy Q.push_to.index Q.pop_from.index)

/-- One step of the ideal FIFO queue bounded at `C` elements, as the specification
words it: a push answers FULL iff the queue holds `C` elements and otherwise succeeds
and appends the value; a pop answers EMPTY iff the queue holds none and otherwise
succeeds with the oldest value. -/
def fifo_step {T : Type} (C : Nat) (q : List T) :
    op T → (queuereturncode × Option T) × List T
  | op.push t =>
    if q.length = C then ((QUEUEISFULL, none), q) else ((QUEUESUCCESS, none), q ++ [t])
  | op.pop _ =>
    match q with
    | [] => ((QUEUEISEMPTY, none), [])
    | x :: q' => ((QUEUESUCCESS, some x), q')

/-- The ideal FIFO queue run over a sequence of calls. -/
def fifo_run {T : Type} (C : Nat) :
    List T → List (op T) → List (queuereturncode × Option T) × List T
  | q, [] => ([], q)
  | q, o :: os => ((fifo_step C q o).1 :: (fifo_run C (fifo_step C q o).2 os).1,
                   (fifo_run C (fifo_step C q o).2 os).2)

/-- What the caller observes of one call: its code and, for a successful pop, the
value delivered.  (After a push, and after a refused pop, the caller's location
holds no queue element.) -/
def observe {T : Type} : op T → queuereturncode × T → queuereturncode × Option T
  | op.push _, r => (r.1, none)
  | op.pop _, r => (r.1, if r.1 = QUEUESUCCESS then some r.2 else none)

/-- The observations of a whole run. -/
def observed {T : Type} (pp : policy) (C fuel : Nat) (Q : spsc T) (ops : List (op T)) :
    Option (List (queuereturncode × Option T)) :=
  (run pp C fuel Q ops).map (fun r => List.zipWith observe ops r.1)

/-- Successful pushes minus successful pops in a history of calls and their results. -/
def net {T : Type} : List (op T) → List (queuereturncode × T) → Int
  | op.push _ :: os, r :: rs => (if r.1 = QUEUESUCCESS then 1 else 0) + net os rs
  | op.pop _ :: os, r :: rs => (if r.1 = QUEUESUCCESS then -1 else 0) + net os rs
  | _, _ => 0

/-- The code the specification prescribes for a call made when the queue holds `n`
elements: a push returns QUEUEISFULL exactly when `n = C` and QUEUESUCCESS otherwise, a
pop returns QUEUEISEMPTY exactly when `n = 0` and QUEUESUCCESS otherwise. -/
def code_by_count {T : Type} (C : Nat) (n : Int) : op T → queuereturncode
  | op.push _ => if n = (C : Int) then QUEUEISFULL else QUEUESUCCESS
  | op.pop _ => if n = 0 then QUEUEISEMPTY else QUEUESUCCESS

/-- The queue `Q` of capacity `C` holds exactly the elements `q`, oldest first: the
front cursor is the sequence number `F` reduced modulo `2 ^ 32`, the back cursor is
`F + q.length` reduced likewise, and the element number `i` sits in the slot that
`exchange` computes for the sequence number `F + i`. -/
def holds {T : Type} (C : Nat) (Q : spsc T) (F : Nat) (q : List T) : Prop :=
  Q.pop_from.index = F % 2 ^ 32 ∧ Q.push_to.index = (F + q.length) % 2 ^ 32 ∧ q.length ≤ C ∧
  ∀ i, i < q.length → Q.state[(F + i) % 2 ^ 32 % C]? = q[i]?

/-- Alternating calls: for every pair `(v, out)` a push of `v` followed by a pop into a
location holding `out`. -/
def alternate {T : Type} : List (T × T) → List (op T)
  | [] => []
  | r :: rs => op.push r.1 :: op.pop r.2 :: alternate rs

/-- What alternating calls must be observed as: every push and every pop succeeds and
every pop delivers the value just pushed. -/
def alternate_observed {T : Type} : List (T × T) → List (queuereturncode × Option T)
  | [] => []
  | r :: rs => (QUEUESUCCESS, none) :: (QUEUESUCCESS, some r.1) :: alternate_observed rs

theorem isfull_base (C fuel l r : Nat) (h : r ≤ l) :
    isfull C (fuel + 1) l r = some (decide ((((r : Int) + (C : Int) - (l : Int)) % 2 ^ 64) < 1)) := by
  simp [isfull, h]

theorem isfull_rec (C fuel l r : Nat) (h : l < r) :
    isfull C (fuel + 1) l r = isfull C fuel (shift C l) (shift C r) := by
  simp [isfull, Nat.not_le.mpr h]

theorem shift_lt (C v : Nat) : shift C v < 2 ^ 32 := by
  unfold shift to_ptr_size; omega

/-- In the base case the answer is the comparison of the wrap-aware occupancy with `C`. -/
theorem isfull_base_iff (C l r : Nat) (hl : l < 2 ^ 32) (h : r ≤ l) (hC : C < 2 ^ 64) :
    ((((r : Int) + (C : Int) - (l : Int)) % 2 ^ 64) < 1) ↔ occupancy l r = C := by
  unfold occupancy; omega

/-- The shift keeps the wrap-aware difference of a pair. -/
theorem occupancy_shift (C l r : Nat) :
    occupancy (shift C l) (shift C r) = occupancy l r := by
  unfold occupancy shift to_ptr_size; omega

/-- With a capacity below `2 ^ 31` and an occupancy of at most `C`, one shift is enough. -/
theorem isfull_valid (C fuel l r : Nat) (hC : C < 2 ^ 31) (hl : l < 2 ^ 32) (hr : r < 2 ^ 32)
    (hocc : occupancy l r ≤ C) :
    isfull C (fuel + 2) l r = some (decide (occupancy l r = C)) := by
  by_cases h : r ≤ l
  · rw [isfull_base _ _ _ _ h]
    have := isfull_base_iff C l r hl h (by omega)
    simp only [this]
  · have hlt : l < r := Nat.not_le.mp h
    have hs : shift C r ≤ shift C l := by
      unfold occupancy at hocc
      unfold shift to_ptr_size; omega
    rw [isfull_rec _ _ _ _ hlt, isfull_base _ _ _ _ hs]
    have := isfull_base_iff C (shift C l) (shift C r) (shift_lt _ _) hs (by omega)
    simp only [this, occupancy_shift]

theorem isempty_eq (C f b : Nat) :
    isempty C f b = decide (occupancy b f = 0) := by
  unfold isempty occupancy
  rw [decide_eq_decide]; omega

/-- With an odd capacity the shift `C + 1` is even, so an even back cursor stays even
and a front cursor one above it stays one above it: the recursion never ends. -/
theorem isfull_odd_capacity (C : Nat) (hC : C % 2 = 1) :
    ∀ (fuel l : Nat), l % 2 = 0 → l + 1 < 2 ^ 32 → isfull C fuel l (l + 1) = none := by
  intro fuel
  induction fuel with
  | zero => intro l _ _; rfl
  | succ n ih =>
    intro l h2 hl
    rw [isfull_rec _ _ _ _ (Nat.lt_succ_self l)]
    have e : shift C (l + 1) = shift C l + 1 := by
      unfold shift to_ptr_size; omega
    rw [e]
    apply ih
    · unfold shift to_ptr_size; omega
    · unfold shift to_ptr_size; omega

/-! ## One call on a well-formed queue -/

theorem push_valid {T : Type} (pp : policy) (C fuel : Nat) (Q : spsc T) (t : T)
    (hC : C < 2 ^ 31) (hv : valid pp C Q) :
    ∃ Q', valid pp C Q' ∧ Q'.pop_from.index = Q.pop_from.index ∧
      ((Q.occupancy = C ∧ push pp C (fuel + 2) Q t = some (QUEUEISFULL, Q', t) ∧
          Q'.push_to.index = Q.push_to.index ∧ Q'.state = Q.state) ∨
       (Q.occupancy < C ∧
          push pp C (fuel + 2) Q t
            = some (QUEUESUCCESS, Q', Q.state.getD (Q.push_to.index % C) t) ∧
          Q'.push_to.index = (Q.push_to.index + 1) % 2 ^ 32 ∧
          Q'.state = Q.state.set (Q.push_to.index % C) t)) := by
  obtain ⟨hb, hf, hlen, hocc, hc⟩ := hv
  cases pp with
  | plain_pointer =>
    by_cases hfull : occupancy Q.push_to.index Q.pop_from.index = C
    · refine ⟨Q, ⟨hb, hf, hlen, hocc, by simp⟩, rfl, Or.inl ⟨hfull, ?_, rfl, rfl⟩⟩
      simp [push, exchange_at_end, unsafe_to_exchange, cannot_exchange_dispatch,
        spsc.pointer_of, queue_end.other, spsc.set_pointer,
        isfull_valid C fuel _ _ hC hb hf hocc, hfull]
    · refine ⟨{ Q with push_to := { Q.push_to with index := (Q.push_to.index + 1) % 2 ^ 32 },
                       state := Q.state.set (Q.push_to.index % C) t },
        ⟨?_, hf, by simpa using hlen, ?_, by simp⟩, rfl, Or.inr ⟨?_, ?_, rfl, rfl⟩⟩
      · simp only; omega
      · simp only; unfold occupancy at *; omega
      · unfold spsc.occupancy; omega
      · simp [push, exchange_at_end, unsafe_to_exchange, cannot_exchange_dispatch,
          spsc.pointer_of, queue_end.other, spsc.set_pointer,
          isfull_valid C fuel _ _ hC hb hf hocc, hfull]
  | caching_pointer =>
    obtain ⟨hfc, hbc, h1, h2, h3⟩ := hc rfl
    by_cases hcache : occupancy Q.push_to.index Q.push_to.cache = C
    · by_cases hfull : occupancy Q.push_to.index Q.pop_from.index = C
      · refine ⟨{ Q with push_to := { Q.push_to with cache := Q.pop_from.index } },
          ⟨hb, hf, hlen, hocc, fun _ => ⟨hf, hbc, hocc, ?_, h3⟩⟩, rfl,
          Or.inl ⟨hfull, ?_, rfl, rfl⟩⟩
        · simp only; unfold occupancy at *; omega
        · simp [push, exchange_at_end, unsafe_to_exchange, cannot_exchange_dispatch,
            spsc.pointer_of, queue_end.other, spsc.set_pointer,
            isfull_valid C fuel _ _ hC hb hf hocc, isfull_valid C fuel _ _ hC hb hfc h1,
            hfull, hcache]
      · refine ⟨{ Q with push_to := { index := (Q.push_to.index + 1) % 2 ^ 32,
                                      cache := Q.pop_from.index },
                         state := Q.state.set (Q.push_to.index % C) t },
          ⟨?_, hf, by simpa using hlen, ?_, fun _ => ⟨hf, hbc, ?_, ?_, ?_⟩⟩, rfl,
          Or.inr ⟨?_, ?_, rfl, rfl⟩⟩
        · simp only; omega
        · simp only; unfold occupancy at *; omega
        · simp only; unfold occupancy at *; omega
        · simp only; unfold occupancy at *; omega
        · simp only; unfold occupancy at *; omega
        · unfold spsc.occupancy; omega
        · simp [push, exchange_at_end, unsafe_to_exchange, cannot_exchange_dispatch,
            spsc.pointer_of, queue_end.other, spsc.set_pointer,
            isfull_valid C fuel _ _ hC hb hf hocc, isfull_valid C fuel _ _ hC hb hfc h1,
            hfull, hcache]
    · have hnf : occupancy Q.push_to.index Q.pop_from.index < C := by
        unfold occupancy at *; omega
      refine ⟨{ Q with push_to := { Q.push_to with index := (Q.push_to.index + 1) % 2 ^ 32 },
                       state := Q.state.set (Q.push_to.index % C) t },
        ⟨?_, hf, by simpa using hlen, ?_, fun _ => ⟨hfc, hbc, ?_, ?_, ?_⟩⟩, rfl,
        Or.inr ⟨hnf, ?_, rfl, rfl⟩⟩
      · simp only; omega
      · simp only; unfold occupancy at *; omega
      · simp only; unfold occupancy at *; omega
      · simp only; unfold occupancy at *; omega
      · simp only; unfold occupancy at *; omega
      · simp [push, exchange_at_end, unsafe_to_exchange, cannot_exchange_dispatch,
          spsc.pointer_of, queue_end.other, spsc.set_pointer,
          isfull_valid C fuel _ _ hC hb hfc h1, hcache]

theorem pop_valid {T : Type} (pp : policy) (C fuel : Nat) (Q : spsc T) (t : T)
    (hv : valid pp C Q) :
    ∃ Q', valid pp C Q' ∧ Q'.push_to.index = Q.push_to.index ∧
      ((Q.occupancy = 0 ∧ pop pp C fuel Q t = some (QUEUEISEMPTY, Q', t) ∧
          Q'.pop_from.index = Q.pop_from.index ∧ Q'.state = Q.state) ∨
       (0 < Q.occupancy ∧
          pop pp C fuel Q t
            = some (QUEUESUCCESS, Q', Q.state.getD (Q.pop_from.index % C) t) ∧
          Q'.pop_from.index = (Q.pop_from.index + 1) % 2 ^ 32 ∧
          Q'.state = Q.state.set (Q.pop_from.index % C) t)) := by
  obtain ⟨hb, hf, hlen, hocc, hc⟩ := hv
  cases pp with
  | plain_pointer =>
    by_cases hemp : occupancy Q.push_to.index Q.pop_from.index = 0
    · refine ⟨Q, ⟨hb, hf, hlen, hocc, by simp⟩, rfl, Or.inl ⟨hemp, ?_, rfl, rfl⟩⟩
      simp [pop, exchange_at_end, unsafe_to_exchange, cannot_exchange_dispatch,
        spsc.pointer_of, queue_end.other, spsc.set_pointer, isempty_eq, hemp]
    · refine ⟨{ Q with pop_from := { Q.pop_from with index := (Q.pop_from.index + 1) % 2 ^ 32 },
                       state := Q.state.set (Q.pop_from.index % C) t },
        ⟨hb, ?_, by simpa using hlen, ?_, by simp⟩, rfl, Or.inr ⟨?_, ?_, rfl, rfl⟩⟩
      · simp only; omega
      · simp only; unfold occupancy at *; omega
      · unfold spsc.occupancy; omega
      · simp [pop, exchange_at_end, unsafe_to_exchange, cannot_exchange_dispatch,
          spsc.pointer_of, queue_end.other, spsc.set_pointer, isempty_eq, hemp]
  | caching_pointer =>
    obtain ⟨hfc, hbc, h1, h2, h3⟩ := hc rfl
    by_cases hcache : occupancy Q.pop_from.cache Q.pop_from.index = 0
    · by_cases hemp : occupancy Q.push_to.index Q.pop_from.index = 0
      · refine ⟨{ Q with pop_from := { Q.pop_from with cache := Q.push_to.index } },
          ⟨hb, hf, hlen, hocc, fun _ => ⟨hfc, hb, h1, h2, ?_⟩⟩, rfl,
          Or.inl ⟨hemp, ?_, rfl, rfl⟩⟩
        · simp only; unfold occupancy at *; omega
        · simp [pop, exchange_at_end, unsafe_to_exchange, cannot_exchange_dispatch,
            spsc.pointer_of, queue_end.other, spsc.set_pointer, isempty_eq, hemp, hcache]
      · refine ⟨{ Q with pop_from := { index := (Q.pop_from.index + 1) % 2 ^ 32,
                                       cache := Q.push_to.index },
                         state := Q.state.set (Q.pop_from.index % C) t },
          ⟨hb, ?_, by simpa using hlen, ?_, fun _ => ⟨hfc, hb, h1, ?_, ?_⟩⟩, rfl,
          Or.inr ⟨?_, ?_, rfl, rfl⟩⟩
        · simp only; omega
        · simp only; unfold occupancy at *; omega
        · simp only; unfold occupancy at *; omega
        · simp only; unfold occupancy at *; omega
        · unfold spsc.occupancy; omega
        · simp [pop, exchange_at_end, unsafe_to_exchange, cannot_exchange_dispatch,
            spsc.pointer_of, queue_end.other, spsc.set_pointer, isempty_eq, hemp, hcache]
    · have hne : 0 < occupancy Q.push_to.index Q.pop_from.index := by
        unfold occupancy at *; omega
      refine ⟨{ Q with pop_from := { Q.pop_from with index := (Q.pop_from.index + 1) % 2 ^ 32 },
                       state := Q.state.set (Q.pop_from.index % C) t },
        ⟨hb, ?_, by simpa using hlen, ?_, fun _ => ⟨hfc, hbc, h1, ?_, ?_⟩⟩, rfl,
        Or.inr ⟨hne, ?_, rfl, rfl⟩⟩
      · simp only; omega
      · simp only; unfold occupancy at *; omega
      · simp only; unfold occupancy at *; omega
      · simp only; unfold occupancy at *; omega
      · simp [pop, exchange_at_end, unsafe_to_exchange, cannot_exchange_dispatch,
          spsc.pointer_of, queue_end.other, spsc.set_pointer, isempty_eq, hcache]

/-! ## The recursion budget -/

/-- Once `isfull` returns with some budget, it returns the same with every larger one. -/
theorem isfull_mono (C k : Nat) :
    ∀ (fuel l r : Nat) (b : Bool), isfull C fuel l r = some b → isfull C (fuel + k) l r = some b := by
  intro fuel
  induction fuel with
  | zero => intro l r b h; simp [isfull] at h
  | succ n ih =>
    intro l r b h
    rw [show n + 1 + k = (n + k) + 1 by omega]
    by_cases hlr : r ≤ l
    · rw [isfull_base _ _ _ _ hlr] at h ⊢; exact h
    · have hlt : l < r := Nat.not_le.mp hlr
      rw [isfull_rec _ _ _ _ hlt] at h ⊢
      exact ih _ _ _ h

theorem cannot_exchange_dispatch_mono (C k fuel : Nat) (E : queue_end) (l r : Nat) (b : Bool)
    (h : cannot_exchange_dispatch C fuel E l r = some b) :
    cannot_exchange_dispatch C (fuel + k) E l r = some b := by
  cases E with
  | front => simpa [cannot_exchange_dispatch] using h
  | back => exact isfull_mono C k fuel l r b (by simpa [cannot_exchange_dispatch] using h)

theorem unsafe_to_exchange_mono (pp : policy) (C k fuel : Nat) (E : queue_end) (i : Nat)
    (loc remote : pointer) (r : Bool × pointer)
    (h : unsafe_to_exchange pp C fuel E i loc remote = some r) :
    unsafe_to_exchange pp C (fuel + k) E i loc remote = some r := by
  cases pp with
  | plain_pointer =>
    simp only [unsafe_to_exchange, Option.map_eq_some'] at h ⊢
    obtain ⟨b, hb, rfl⟩ := h
    exact ⟨b, cannot_exchange_dispatch_mono C k fuel E _ _ b hb, rfl⟩
  | caching_pointer =>
    simp only [unsafe_to_exchange] at h ⊢
    cases h1 : cannot_exchange_dispatch C fuel E i loc.cache with
    | none => simp [h1] at h
    | some b1 =>
      rw [cannot_exchange_dispatch_mono C k fuel E _ _ b1 h1]
      rw [h1] at h
      cases b1 with
      | false => simpa using h
      | true =>
        simp only at h ⊢
        cases h2 : cannot_exchange_dispatch C fuel E i remote.index with
        | none => simp [h2] at h
        | some b2 =>
          rw [cannot_exchange_dispatch_mono C k fuel E _ _ b2 h2]
          rw [h2] at h
          exact h

theorem exchange_at_end_mono {T : Type} (pp : policy) (C k fuel : Nat) (E : queue_end)
    (Q : spsc T) (t : T) (r : queuereturncode × spsc T × T)
    (h : exchange_at_end pp C fuel E Q t = some r) :
    exchange_at_end pp C (fuel + k) E Q t = some r := by
  simp only [exchange_at_end] at h ⊢
  cases hu : unsafe_to_exchange pp C fuel E (Q.pointer_of E).index (Q.pointer_of E)
      (Q.pointer_of E.other) with
  | none => simp [hu] at h
  | some u =>
    rw [unsafe_to_exchange_mono pp C k fuel E _ _ _ u hu]
    rw [hu] at h
    exact h

theorem step_mono {T : Type} (pp : policy) (C k fuel : Nat) (Q : spsc T) (o : op T)
    (r : queuereturncode × spsc T × T) (h : step pp C fuel Q o = some r) :
    step pp C (fuel + k) Q o = some r := by
  cases o with
  | push t =>
    simp only [step, push, Option.map_eq_some'] at h ⊢
    obtain ⟨a, ha, rfl⟩ := h
    exact ⟨a, exchange_at_end_mono pp C k fuel _ Q t a ha, rfl⟩
  | pop t =>
    simp only [step, pop, Option.map_eq_some'] at h ⊢
    obtain ⟨a, ha, rfl⟩ := h
    exact ⟨a, exchange_at_end_mono pp C k fuel _ Q t a ha, rfl⟩

theorem run_mono {T : Type} (pp : policy) (C k fuel : Nat) (ops : List (op T)) :
    ∀ (Q : spsc T) (r : List (queuereturncode × T) × spsc T),
      run pp C fuel Q ops = some r → run pp C (fuel + k) Q ops = some r := by
  induction ops with
  | nil => intro Q r h; simpa [run] using h
  | cons o os ih =>
    intro Q r h
    simp only [run] at h ⊢
    cases hs : step pp C fuel Q o with
    | none => simp [hs] at h
    | some a =>
      obtain ⟨c, Q1, t1⟩ := a
      rw [step_mono pp C k fuel Q o _ hs]
      rw [hs] at h
      simp only at h ⊢
      cases hr : run pp C fuel Q1 os with
      | none => simp [hr] at h
      | some b =>
        rw [ih Q1 b hr]
        rw [hr] at h
        exact h

/-! ## Runs on a well-formed queue -/

theorem run_cons {T : Type} (pp : policy) (C fuel : Nat) (Q : spsc T) (o : op T)
    (os : List (op T)) :
    run pp C fuel Q (o :: os)
      = (step pp C fuel Q o).bind
          (fun a => (run pp C fuel a.2.1 os).map (fun r => ((a.1, a.2.2) :: r.1, r.2))) := by
  simp only [run]
  cases hs : step pp C fuel Q o with
  | none => rfl
  | some a =>
    obtain ⟨c, Q1, t1⟩ := a
    simp only [Option.some_bind]
    cases h1 : run pp C fuel Q1 os with
    | none => rfl
    | some b => rfl

theorem run_append {T : Type} (pp : policy) (C fuel : Nat) (xs ys : List (op T)) :
    ∀ (Q : spsc T), run pp C fuel Q (xs ++ ys)
      = (run pp C fuel Q xs).bind
          (fun r => (run pp C fuel r.2 ys).map (fun r2 => (r.1 ++ r2.1, r2.2))) := by
  induction xs with
  | nil =>
    intro Q
    cases h : run pp C fuel Q ys <;> simp [run, h]
  | cons o os ih =>
    intro Q
    rw [List.cons_append, run_cons, run_cons]
    cases hs : step pp C fuel Q o with
    | none => rfl
    | some a =>
      simp only [Option.some_bind]
      rw [ih a.2.1]
      cases h1 : run pp C fuel a.2.1 os with
      | none => rfl
      | some b =>
        simp only [Option.some_bind, Option.map_some']
        cases h2 : run pp C fuel b.2 ys with
        | none => rfl
        | some d => simp

theorem fresh_valid {T : Type} (pp : policy) (C : Nat) (init : List T) (h : init.length = C) :
    valid pp C (fresh init) := by
  refine ⟨by simp [fresh, seeded], by simp [fresh, seeded], h, by simp [fresh, seeded, occupancy],
    fun _ => ?_⟩
  simp [fresh, seeded, occupancy]

/-- Every sequence of calls on a well-formed queue returns, leaves the queue well
formed, and changes the occupancy by the successful pushes minus the successful pops. -/
theorem run_valid {T : Type} (pp : policy) (C k : Nat) (hC : C < 2 ^ 31) (ops : List (op T)) :
    ∀ (Q : spsc T), valid pp C Q →
      ∃ res Q', run pp C (k + 2) Q ops = some (res, Q') ∧ valid pp C Q' ∧
        res.length = ops.length ∧ (Q'.occupancy : Int) = Q.occupancy + net ops res := by
  induction ops with
  | nil => intro Q hv; exact ⟨[], Q, rfl, hv, rfl, by simp [net]⟩
  | cons o os ih =>
    intro Q hv
    cases o with
    | push t =>
      obtain ⟨Q1, hv1, hf1, h⟩ := push_valid pp C k Q t hC hv
      obtain ⟨res, Q2, hr, hv2, hl, hn⟩ := ih Q1 hv1
      have hocc := hv.2.2.2.1
      rcases h with ⟨ho, hp, hb1, _⟩ | ⟨ho, hp, hb1, _⟩
      · refine ⟨(QUEUEISFULL, t) :: res, Q2, by simp [run, step, hp, hr], hv2, by simp [hl], ?_⟩
        rw [hn]
        simp only [spsc.occupancy, hf1, hb1, net]
        simp
      · refine ⟨(QUEUESUCCESS, Q.state.getD (Q.push_to.index % C) t) :: res, Q2,
          by simp [run, step, hp, hr], hv2, by simp [hl], ?_⟩
        rw [hn]
        simp only [spsc.occupancy, hf1, hb1, net, if_true]
        simp only [spsc.occupancy] at ho
        unfold occupancy at *
        omega
    | pop t =>
      obtain ⟨Q1, hv1, hf1, h⟩ := pop_valid pp C (k + 2) Q t hv
      obtain ⟨res, Q2, hr, hv2, hl, hn⟩ := ih Q1 hv1
      have hocc := hv.2.2.2.1
      rcases h with ⟨ho, hp, hb1, _⟩ | ⟨ho, hp, hb1, _⟩
      · refine ⟨(QUEUEISEMPTY, t) :: res, Q2, by simp [run, step, hp, hr], hv2, by simp [hl], ?_⟩
        rw [hn]
        simp only [spsc.occupancy, hf1, hb1, net]
        simp
      · refine ⟨(QUEUESUCCESS, Q.state.getD (Q.pop_from.index % C) t) :: res, Q2,
          by simp [run, step, hp, hr], hv2, by simp [hl], ?_⟩
        rw [hn]
        simp only [spsc.occupancy, hf1, hb1, net, if_true]
        simp only [spsc.occupancy] at ho
        unfold occupancy at *
        omega

/-! ## Simulation of the ideal FIFO queue -/

/-- Two sequence numbers less than `C` apart use different slots, provided the slot
index does not jump between them: the capacity divides `2 ^ 32`, or neither of them
has wrapped. -/
theorem slot_ne (C m n : Nat) (hmn : m < n) (hd : n - m < C)
    (hw : 2 ^ 32 % C = 0 ∨ n < 2 ^ 32) : m % 2 ^ 32 % C ≠ n % 2 ^ 32 % C := by
  have key : m % C ≠ n % C := by
    intro h
    have h0 : (n - m) % C = 0 := Nat.sub_mod_eq_zero_of_mod_eq h.symm
    have hdvd : C ∣ n - m := Nat.dvd_of_mod_eq_zero h0
    have := Nat.le_of_dvd (by omega) hdvd
    omega
  rcases hw with hw | hw
  · have hdvd : C ∣ 2 ^ 32 := Nat.dvd_of_mod_eq_zero hw
    rw [Nat.mod_mod_of_dvd _ hdvd, Nat.mod_mod_of_dvd _ hdvd]
    exact key
  · rw [Nat.mod_eq_of_lt hw, Nat.mod_eq_of_lt (by omega : m < 2 ^ 32)]
    exact key

theorem holds_occupancy {T : Type} (C : Nat) (Q : spsc T) (F : Nat) (q : List T)
    (hC : C < 2 ^ 31) (h : holds C Q F q) : Q.occupancy = q.length := by
  obtain ⟨hf, hb, hl, _⟩ := h
  simp only [spsc.occupancy, occupancy, hf, hb]
  omega

theorem holds_push {T : Type} (C : Nat) (Q Q1 : spsc T) (F : Nat) (q : List T) (t : T)
    (hlen : Q.state.length = C) (h : holds C Q F q) (hlt : q.length < C)
    (hw : 2 ^ 32 % C = 0 ∨ F + q.length < 2 ^ 32)
    (hf1 : Q1.pop_from.index = Q.pop_from.index)
    (hb1 : Q1.push_to.index = (Q.push_to.index + 1) % 2 ^ 32)
    (hs1 : Q1.state = Q.state.set (Q.push_to.index % C) t) :
    holds C Q1 F (q ++ [t]) := by
  obtain ⟨hf, hb, hl, hsl⟩ := h
  refine ⟨by rw [hf1, hf], ?_, by simp; omega, ?_⟩
  · rw [hb1, hb, List.length_append, List.length_singleton]; omega
  · intro i hi
    rw [hs1, hb]
    simp only [List.length_append, List.length_singleton] at hi
    by_cases hlast : i = q.length
    · subst hlast
      rw [List.getElem?_set_self (by rw [hlen]; exact Nat.mod_lt _ (by omega))]
      simp
    · have hi' : i < q.length := by omega
      have hne : (F + q.length) % 2 ^ 32 % C ≠ (F + i) % 2 ^ 32 % C :=
        (slot_ne C (F + i) (F + q.length) (by omega) (by omega) hw).symm
      rw [List.getElem?_set_ne hne, List.getElem?_append_left hi']
      exact hsl i hi'

theorem holds_pop {T : Type} (C : Nat) (Q Q1 : spsc T) (F : Nat) (x : T) (q : List T) (t : T)
    (h : holds C Q F (x :: q))
    (hw : 2 ^ 32 % C = 0 ∨ F + (x :: q).length ≤ 2 ^ 32)
    (hb1 : Q1.push_to.index = Q.push_to.index)
    (hf1 : Q1.pop_from.index = (Q.pop_from.index + 1) % 2 ^ 32)
    (hs1 : Q1.state = Q.state.set (Q.pop_from.index % C) t) :
    Q.state.getD (Q.pop_from.index % C) t = x ∧ holds C Q1 (F + 1) q := by
  obtain ⟨hf, hb, hl, hsl⟩ := h
  simp only [List.length_cons] at hl hb hw
  constructor
  · have := hsl 0 (by simp)
    rw [List.getD_eq_getElem?_getD, hf]
    simp only [Nat.add_zero, List.getElem?_cons_zero] at this
    rw [this]; rfl
  · refine ⟨by rw [hf1, hf]; omega, by rw [hb1, hb]; congr 1; omega, by omega, ?_⟩
    intro i hi
    rw [hs1, hf]
    have hne : F % 2 ^ 32 % C ≠ (F + 1 + i) % 2 ^ 32 % C :=
      slot_ne C F (F + 1 + i) (by omega) (by omega) (by omega)
    rw [List.getElem?_set_ne hne]
    have := hsl (i + 1) (by simp; omega)
    rw [List.getElem?_cons_succ] at this
    rw [← this]; congr 3; omega

/-- On a well-formed queue that holds `q`, a sequence of calls during which the slot
index does not jump (the capacity divides `2 ^ 32`, or the back cursor does not wrap)
is observed exactly as the ideal FIFO queue started with `q`. -/
theorem run_fifo {T : Type} (pp : policy) (C k : Nat) (hC : C < 2 ^ 31) (ops : List (op T)) :
    ∀ (Q : spsc T) (F : Nat) (q : List T), valid pp C Q → holds C Q F q →
      (2 ^ 32 % C = 0 ∨ F + q.length + ops.length ≤ 2 ^ 32) →
      ∃ res Q', run pp C (k + 2) Q ops = some (res, Q') ∧
        List.zipWith observe ops res = (fifo_run C q ops).1 ∧ valid pp C Q' ∧
        ∃ F', holds C Q' F' (fifo_run C q ops).2 := by
  induction ops with
  | nil => intro Q F q hv hh _; exact ⟨[], Q, rfl, rfl, hv, F, hh⟩
  | cons o os ih =>
    intro Q F q hv hh hw
    have hocc := holds_occupancy C Q F q hC hh
    have hlen := hv.2.2.1
    simp only [List.length_cons] at hw
    cases o with
    | push t =>
      obtain ⟨Q1, hv1, hf1, h⟩ := push_valid pp C k Q t hC hv
      rcases h with ⟨ho, hp, hb1, hs1⟩ | ⟨ho, hp, hb1, hs1⟩
      · have hh1 : holds C Q1 F q := ⟨by rw [hf1]; exact hh.1, by rw [hb1]; exact hh.2.1,
          hh.2.2.1, by rw [hs1]; exact hh.2.2.2⟩
        obtain ⟨res, Q2, hr, hz, hv2, F2, hh2⟩ := ih Q1 F q hv1 hh1 (by omega)
        have hq : q.length = C := by omega
        refine ⟨(QUEUEISFULL, t) :: res, Q2, by simp [run, step, hp, hr], ?_, hv2, F2, ?_⟩
        · simp [fifo_run, fifo_step, hq, observe, hz]
        · simpa [fifo_run, fifo_step, hq] using hh2
      · have hq : q.length < C := by omega
        have hh1 : holds C Q1 F (q ++ [t]) :=
          holds_push C Q Q1 F q t hlen hh hq (by omega) hf1 hb1 hs1
        obtain ⟨res, Q2, hr, hz, hv2, F2, hh2⟩ := ih Q1 F (q ++ [t]) hv1 hh1
          (by simp only [List.length_append, List.length_singleton]; omega)
        refine ⟨(QUEUESUCCESS, Q.state.getD (Q.push_to.index % C) t) :: res, Q2,
          by simp [run, step, hp, hr], ?_, hv2, F2, ?_⟩
        · simp [fifo_run, fifo_step, Nat.ne_of_lt hq, observe, hz]
        · simpa [fifo_run, fifo_step, Nat.ne_of_lt hq] using hh2
    | pop t =>
      obtain ⟨Q1, hv1, hb1, h⟩ := pop_valid pp C (k + 2) Q t hv
      rcases h with ⟨ho, hp, hf1, hs1⟩ | ⟨ho, hp, hf1, hs1⟩
      · have hh1 : holds C Q1 F q := ⟨by rw [hf1]; exact hh.1, by rw [hb1]; exact hh.2.1,
          hh.2.2.1, by rw [hs1]; exact hh.2.2.2⟩
        obtain ⟨res, Q2, hr, hz, hv2, F2, hh2⟩ := ih Q1 F q hv1 hh1 (by omega)
        have hq : q = [] := List.eq_nil_of_length_eq_zero (by omega)
        subst hq
        refine ⟨(QUEUEISEMPTY, t) :: res, Q2, by simp [run, step, hp, hr], ?_, hv2, F2, ?_⟩
        · simp [fifo_run, fifo_step, observe, hz]
        · simpa [fifo_run, fifo_step] using hh2
      · cases q with
        | nil => simp at hocc; omega
        | cons x q' =>
          obtain ⟨hx, hh1⟩ := holds_pop C Q Q1 F x q' t hh (by omega) hb1 hf1 hs1
          simp only [List.length_cons] at hw
          obtain ⟨res, Q2, hr, hz, hv2, F2, hh2⟩ := ih Q1 (F + 1) q' hv1 hh1 (by omega)
          refine ⟨(QUEUESUCCESS, Q.state.getD (Q.pop_from.index % C) t) :: res, Q2,
            by simp [run, step, hp, hr], ?_, hv2, F2, ?_⟩
          · have hx' := hx
            rw [List.getD_eq_getElem?_getD] at hx'
            simp [fifo_run, fifo_step, observe, hz, hx']
          · simpa [fifo_run, fifo_step] using hh2

/-! ## The ideal FIFO queue on particular sequences -/

theorem fifo_run_append {T : Type} (C : Nat) (xs ys : List (op T)) :
    ∀ q : List T, fifo_run C q (xs ++ ys)
      = ((fifo_run C q xs).1 ++ (fifo_run C (fifo_run C q xs).2 ys).1,
         (fifo_run C (fifo_run C q xs).2 ys).2) := by
  induction xs with
  | nil => intro q; simp [fifo_run]
  | cons o os ih => intro q; simp [fifo_run, ih]

theorem fifo_run_pushes {T : Type} (C : Nat) (vs : List T) :
    ∀ q : List T, q.length + vs.length ≤ C →
      fifo_run C q (vs.map op.push)
        = (List.replicate vs.length (QUEUESUCCESS, none), q ++ vs) := by
  induction vs with
  | nil => intro q _; simp [fifo_run]
  | cons v vs ih =>
    intro q h
    simp only [List.length_cons] at h
    have hq : q.length ≠ C := by omega
    have := ih (q ++ [v]) (by simp only [List.length_append, List.length_singleton]; omega)
    simp [fifo_run, fifo_step, hq, this, List.replicate_succ]

theorem fifo_run_pops {T : Type} (C : Nat) (q : List T) :
    ∀ outs : List T, outs.length = q.length →
      fifo_run C q (outs.map op.pop)
        = (q.map (fun v => (QUEUESUCCESS, some v)), []) := by
  induction q with
  | nil =>
    intro outs h
    have : outs = [] := List.eq_nil_of_length_eq_zero (by simpa using h)
    subst this; simp [fifo_run]
  | cons x q ih =>
    intro outs h
    cases outs with
    | nil => simp at h
    | cons o outs =>
      have := ih outs (by simpa using h)
      simp [fifo_run, fifo_step, this]

theorem fresh_holds {T : Type} (C : Nat) (init : List T) : holds C (fresh init) 0 [] := by
  refine ⟨by simp [fresh, seeded], by simp [fresh, seeded], by simp, ?_⟩
  intro i hi; simp at hi

/-! ## Push then pop on an empty queue -/

theorem round_trip_valid {T : Type} (pp : policy) (C k : Nat) (hC1 : 1 ≤ C) (hC : C < 2 ^ 31)
    (Q : spsc T) (hv : valid pp C Q) (he : Q.pop_from.index = Q.push_to.index) (v out : T) :
    ∃ Q1 e Q2, push pp C (k + 2) Q v = some (QUEUESUCCESS, Q1, e) ∧
      pop pp C (k + 2) Q1 out = some (QUEUESUCCESS, Q2, v) ∧
      valid pp C Q2 ∧ Q2.pop_from.index = Q2.push_to.index := by
  have hb := hv.1
  have hlen := hv.2.2.1
  have hocc : Q.occupancy = 0 := by simp [spsc.occupancy, occupancy, he]
  obtain ⟨Q1, hv1, hf1, h⟩ := push_valid pp C k Q v hC hv
  rcases h with ⟨ho, _, _, _⟩ | ⟨_, hp, hb1, hs1⟩
  · omega
  · obtain ⟨Q2, hv2, hb2, h⟩ := pop_valid pp C (k + 2) Q1 out hv1
    have hocc1 : Q1.occupancy = 1 := by
      simp only [spsc.occupancy, occupancy, hf1, hb1, he]; omega
    rcases h with ⟨ho, _, _, _⟩ | ⟨_, hq, hf2, _⟩
    · omega
    · refine ⟨Q1, _, Q2, hp, ?_, hv2, by rw [hf2, hb2, hf1, hb1, he]⟩
      rw [hq, hs1, hf1, he, List.getD_eq_getElem?_getD,
        List.getElem?_set_self (by rw [hlen]; exact Nat.mod_lt _ (by omega))]
      rfl

theorem alternate_valid {T : Type} (pp : policy) (C k : Nat) (hC1 : 1 ≤ C) (hC : C < 2 ^ 31)
    (rounds : List (T × T)) :
    ∀ (Q : spsc T), valid pp C Q → Q.pop_from.index = Q.push_to.index →
      observed pp C (k + 2) Q (alternate rounds) = some (alternate_observed rounds) := by
  induction rounds with
  | nil => intro Q _ _; rfl
  | cons r rs ih =>
    intro Q hv he
    obtain ⟨Q1, e, Q2, hp, hq, hv2, he2⟩ := round_trip_valid pp C k hC1 hC Q hv he r.1 r.2
    have := ih Q2 hv2 he2
    simp only [observed, Option.map_eq_some'] at this
    obtain ⟨a, ha, hz⟩ := this
    simp [observed, alternate, alternate_observed, run, step, hp, hq, ha, observe, hz]

/-! ## One call on an arbitrary queue -/

theorem unsafe_to_exchange_loc (pp : policy) (C fuel : Nat) (E : queue_end) (i : Nat)
    (loc remote : pointer) (b : Bool) (loc1 : pointer)
    (h : unsafe_to_exchange pp C fuel E i loc remote = some (b, loc1)) :
    loc1.index = loc.index ∧ (pp = policy.plain_pointer → loc1 = loc) := by
  cases pp with
  | plain_pointer =>
    simp only [unsafe_to_exchange, Option.map_eq_some'] at h
    obtain ⟨_, _, h⟩ := h
    obtain ⟨_, rfl⟩ := Prod.mk.inj h
    exact ⟨rfl, fun _ => rfl⟩
  | caching_pointer =>
    simp only [unsafe_to_exchange] at h
    refine ⟨?_, fun hpp => by cases hpp⟩
    cases h1 : cannot_exchange_dispatch C fuel E i loc.cache with
    | none => simp [h1] at h
    | some b1 =>
      rw [h1] at h
      cases b1 with
      | false =>
        simp only [Option.some.injEq, Prod.mk.injEq] at h
        rw [← h.2]
      | true =>
        simp only at h
        cases h2 : cannot_exchange_dispatch C fuel E i remote.index with
        | none => simp [h2] at h
        | some b2 =>
          rw [h2] at h
          cases b2 <;>
          · simp only [Option.some.injEq, Prod.mk.injEq] at h
            rw [← h.2]

/-- The two ways `exchange` returns: refused, with at most the caller's own snapshot
changed, or done, with the slot swapped and the caller's own cursor advanced. -/
theorem exchange_at_end_cases {T : Type} (pp : policy) (C fuel : Nat) (E : queue_end)
    (Q Q1 : spsc T) (t t1 : T) (c : queuereturncode)
    (h : exchange_at_end pp C fuel E Q t = some (c, Q1, t1)) :
    ∃ loc1 : pointer, loc1.index = (Q.pointer_of E).index ∧
      (pp = policy.plain_pointer → loc1 = Q.pointer_of E) ∧
      ((c = QUEUEFAILURE ∧ Q1 = Q.set_pointer E loc1 ∧ t1 = t) ∨
       (c = QUEUESUCCESS ∧
        Q1 = { Q.set_pointer E { loc1 with index := ((Q.pointer_of E).index + 1) % 2 ^ 32 } with
               state := Q.state.set ((Q.pointer_of E).index % C) t } ∧
        t1 = Q.state.getD ((Q.pointer_of E).index % C) t)) := by
  simp only [exchange_at_end] at h
  cases hu : unsafe_to_exchange pp C fuel E (Q.pointer_of E).index (Q.pointer_of E)
      (Q.pointer_of E.other) with
  | none => simp [hu] at h
  | some u =>
    obtain ⟨b, loc1⟩ := u
    obtain ⟨hi, hp⟩ := unsafe_to_exchange_loc pp C fuel E _ _ _ b loc1 hu
    rw [hu] at h
    refine ⟨loc1, hi, hp, ?_⟩
    cases b with
    | true =>
      simp only [Option.some.injEq, Prod.mk.injEq] at h
      exact Or.inl ⟨h.1.symm, h.2.1.symm, h.2.2.symm⟩
    | false =>
      simp only [Option.some.injEq, Prod.mk.injEq] at h
      exact Or.inr ⟨h.1.symm, h.2.1.symm, h.2.2.symm⟩

theorem push_cases {T : Type} (pp : policy) (C fuel : Nat) (Q Q1 : spsc T) (t t1 : T)
    (c : queuereturncode) (h : push pp C fuel Q t = some (c, Q1, t1)) :
    ∃ loc1 : pointer, loc1.index = Q.push_to.index ∧
      (pp = policy.plain_pointer → loc1 = Q.push_to) ∧
      ((c = QUEUEISFULL ∧ Q1 = { Q with push_to := loc1 } ∧ t1 = t) ∨
       (c = QUEUESUCCESS ∧
        Q1 = { Q with push_to := { loc1 with index := (Q.push_to.index + 1) % 2 ^ 32 },
                      state := Q.state.set (Q.push_to.index % C) t } ∧
        t1 = Q.state.getD (Q.push_to.index % C) t)) := by
  simp only [push, Option.map_eq_some'] at h
  obtain ⟨⟨c0, Q0, t0⟩, hx, he⟩ := h
  simp only [Prod.mk.injEq] at he
  obtain ⟨hc, rfl, rfl⟩ := he
  obtain ⟨loc1, hi, hp, hcase⟩ := exchange_at_end_cases pp C fuel _ Q Q0 t t0 c0 hx
  refine ⟨loc1, hi, hp, ?_⟩
  rcases hcase with ⟨rfl, hq, ht⟩ | ⟨rfl, hq, ht⟩
  · exact Or.inl ⟨by simpa using hc.symm, hq, ht⟩
  · exact Or.inr ⟨by simpa using hc.symm, hq, ht⟩

theorem pop_cases {T : Type} (pp : policy) (C fuel : Nat) (Q Q1 : spsc T) (t t1 : T)
    (c : queuereturncode) (h : pop pp C fuel Q t = some (c, Q1, t1)) :
    ∃ loc1 : pointer, loc1.index = Q.pop_from.index ∧
      (pp = policy.plain_pointer → loc1 = Q.pop_from) ∧
      ((c = QUEUEISEMPTY ∧ Q1 = { Q with pop_from := loc1 } ∧ t1 = t) ∨
       (c = QUEUESUCCESS ∧
        Q1 = { Q with pop_from := { loc1 with index := (Q.pop_from.index + 1) % 2 ^ 32 },
                      state := Q.state.set (Q.pop_from.index % C) t } ∧
        t1 = Q.state.getD (Q.pop_from.index % C) t)) := by
  simp only [pop, Option.map_eq_some'] at h
  obtain ⟨⟨c0, Q0, t0⟩, hx, he⟩ := h
  simp only [Prod.mk.injEq] at he
  obtain ⟨hc, rfl, rfl⟩ := he
  obtain ⟨loc1, hi, hp, hcase⟩ := exchange_at_end_cases pp C fuel _ Q Q0 t t0 c0 hx
  refine ⟨loc1, hi, hp, ?_⟩
  rcases hcase with ⟨rfl, hq, ht⟩ | ⟨rfl, hq, ht⟩
  · exact Or.inl ⟨by simpa using hc.symm, hq, ht⟩
  · exact Or.inr ⟨by simpa using hc.symm, hq, ht⟩

/-- Every state reached from a fresh queue is well formed, whatever the budget. -/
theorem reach_valid {T : Type} (pp : policy) (C fuel : Nat) (hC : C < 2 ^ 31) (init : List T)
    (hinit : init.length = C) (ops : List (op T)) (res : List (queuereturncode × T))
    (Q : spsc T) (hreach : run pp C fuel (fresh init) ops = some (res, Q)) : valid pp C Q := by
  obtain ⟨res', Q', hr, hv, _, _⟩ :=
    run_valid pp C fuel hC ops (fresh init) (fresh_valid pp C init hinit)
  rw [run_mono pp C 2 fuel ops _ _ hreach] at hr
  obtain ⟨_, rfl⟩ := Prod.mk.inj (Option.some.inj hr)
  exact hv

/-! ## Claims -/

/-- C1 (evaluation at the failing input): with capacity 3 and both cursors (and
snapshots) at `2 ^ 32 - 1`, two pushes of 10 and 20 followed by two pops deliver 20 and
then the second pop's own argument 0, under both policies and with every recursion
budget that lets the calls return, whereas the ideal FIFO queue delivers 10 and then
20: the back cursor wraps from `2 ^ 32 - 1` to `0` and both values land in slot 0. -/
theorem fifo_order_lost_across_wraparound (pp : policy) (k : Nat) :
    observed pp 3 (2 + k) (seeded (2 ^ 32 - 1) [0, 0, 0])
        [op.push 10, op.push 20, op.pop 0, op.pop 0]
      = some [(QUEUESUCCESS, none), (QUEUESUCCESS, none),
              (QUEUESUCCESS, some 20), (QUEUESUCCESS, some 0)] ∧
    (fifo_run 3 ([] : List Nat) [op.push 10, op.push 20, op.pop 0, op.pop 0]).1
      = [(QUEUESUCCESS, none), (QUEUESUCCESS, none),
         (QUEUESUCCESS, some 10), (QUEUESUCCESS, some 20)] := by
  refine ⟨?_, by decide⟩
  have h : ∃ r, run pp 3 2 (seeded (2 ^ 32 - 1) [0, 0, 0])
        [op.push 10, op.push 20, op.pop 0, op.pop 0] = some r ∧
      List.zipWith observe [op.push 10, op.push 20, op.pop 0, op.pop 0] r.1
        = [(QUEUESUCCESS, none), (QUEUESUCCESS, none),
           (QUEUESUCCESS, some 20), (QUEUESUCCESS, some 0)] := by
    cases pp <;> exact ⟨_, rfl, by decide⟩
  obtain ⟨r, hr, ho⟩ := h
  simp only [observed, run_mono pp 3 k 2 _ _ r hr, Option.map_some', ho]

/-- C2 (evaluation at the failing input): `isfull<1>(0, 1)` never reaches its base case,
whatever the recursion budget, although the wrap-aware occupancy of the pair is
`2 ^ 32 - 1`, not the capacity 1, so that the answer claimed is `false`. -/
theorem isfull_diverges :
    (∀ fuel : Nat, isfull 1 fuel 0 1 = none) ∧ occupancy 0 1 ≠ 1 :=
  ⟨fun fuel => isfull_odd_capacity 1 rfl fuel 0 rfl (by norm_num), by decide⟩

/-- C3: for 32-bit cursor values and every capacity, `isempty<C>(front, back)` is true
exactly when `(back - front) mod 2 ^ 32 = 0`, that is exactly when `front = back`; it is
false when back is ahead of front and when front is ahead of back, and true at
`front = back = 2 ^ 32 - 1`. -/
theorem isempty_iff (C front back : Nat) (hf : front < 2 ^ 32) (hb : back < 2 ^ 32) :
    (isempty C front back = true ↔ occupancy back front = 0) ∧
    (isempty C front back = true ↔ front = back) ∧
    (front < back → isempty C front back = false) ∧
    (back < front → isempty C front back = false) ∧
    isempty C (2 ^ 32 - 1) (2 ^ 32 - 1) = true := by
  have h1 : isempty C front back = true ↔ occupancy back front = 0 := by
    rw [isempty_eq]; simp
  have h2 : occupancy back front = 0 ↔ front = back := by
    unfold occupancy; omega
  refine ⟨h1, h1.trans h2, ?_, ?_, ?_⟩
  · intro h
    cases hv : isempty C front back with
    | false => rfl
    | true => have := (h1.trans h2).mp hv; omega
  · intro h
    cases hv : isempty C front back with
    | false => rfl
    | true => have := (h1.trans h2).mp hv; omega
  · rw [isempty_eq]; simp [occupancy]

/-- Witness of C3 at capacity 32 with `front = 12` and `back = 24`. -/
theorem isempty_iff_witness :
    (isempty 32 12 24 = true ↔ occupancy 24 12 = 0) ∧
    (isempty 32 12 24 = true ↔ 12 = 24) ∧
    (12 < 24 → isempty 32 12 24 = false) ∧
    (24 < 12 → isempty 32 12 24 = false) ∧
    isempty 32 (2 ^ 32 - 1) (2 ^ 32 - 1) = true :=
  isempty_iff 32 12 24 (by decide) (by decide)

/-- C4: on a freshly constructed queue of capacity `C`, `1 ≤ C < 2 ^ 31`, under both
policies, every sequence of calls returns, and a call made after any sequence `ops`
answers by the true element count `net ops res` (successful pushes minus successful
pops so far): a push returns QUEUEISFULL exactly when the count is `C` and
QUEUESUCCESS otherwise, a pop returns QUEUEISEMPTY exactly when the count is `0` and
QUEUESUCCESS otherwise; hence no other code is returned. -/
theorem codes_track_count {T : Type} (pp : policy) (C fuel : Nat) (_hC1 : 1 ≤ C)
    (hC : C < 2 ^ 31) (hfuel : 2 ≤ fuel) (init : List T) (hinit : init.length = C)
    (ops : List (op T)) (o : op T) :
    ∃ res Q1 c t Q2,
      run pp C fuel (fresh init) ops = some (res, Q1) ∧
      run pp C fuel (fresh init) (ops ++ [o]) = some (res ++ [(c, t)], Q2) ∧
      c = code_by_count C (net ops res) o ∧
      c ≠ QUEUEFAILURE ∧ c ≠ QUEUEAUTHORITYFAILURE ∧ c ≠ QUEUEARGUMENTFAILURE := by
  obtain ⟨k, rfl⟩ : ∃ k, fuel = k + 2 := ⟨fuel - 2, by omega⟩
  obtain ⟨res, Q1, hr, hv1, _, hn⟩ :=
    run_valid pp C k hC ops (fresh init) (fresh_valid pp C init hinit)
  have h0 : ((fresh init).occupancy : Int) = 0 := by
    simp [fresh, seeded, spsc.occupancy, occupancy]
  rw [h0, zero_add] at hn
  cases o with
  | push v =>
    obtain ⟨Q2, _, _, h⟩ := push_valid pp C k Q1 v hC hv1
    rcases h with ⟨ho, hp, _, _⟩ | ⟨ho, hp, _, _⟩
    · refine ⟨res, Q1, QUEUEISFULL, v, Q2, hr, ?_, ?_, by decide, by decide, by decide⟩
      · rw [run_append, hr]; simp [run, step, hp]
      · simp [code_by_count, ← hn, ho]
    · refine ⟨res, Q1, QUEUESUCCESS, Q1.state.getD (Q1.push_to.index % C) v, Q2, hr, ?_, ?_,
        by decide, by decide, by decide⟩
      · rw [run_append, hr]; simp [run, step, hp]
      · have : (Q1.occupancy : Int) ≠ (C : Int) := by omega
        simp [code_by_count, ← hn, this]
  | pop v =>
    obtain ⟨Q2, _, _, h⟩ := pop_valid pp C (k + 2) Q1 v hv1
    rcases h with ⟨ho, hp, _, _⟩ | ⟨ho, hp, _, _⟩
    · refine ⟨res, Q1, QUEUEISEMPTY, v, Q2, hr, ?_, ?_, by decide, by decide, by decide⟩
      · rw [run_append, hr]; simp [run, step, hp]
      · simp [code_by_count, ← hn, ho]
    · refine ⟨res, Q1, QUEUESUCCESS, Q1.state.getD (Q1.pop_from.index % C) v, Q2, hr, ?_, ?_,
        by decide, by decide, by decide⟩
      · rw [run_append, hr]; simp [run, step, hp]
      · have : (Q1.occupancy : Int) ≠ 0 := by omega
        simp [code_by_count, ← hn, this]

/-- Witness of C4: capacity 2, after push, push, pop, push the count is 2 and a further
push returns QUEUEISFULL; the five codes are S, S, S, S, FULL. -/
theorem codes_track_count_witness :
    (∃ res Q1 c t Q2,
      run policy.caching_pointer 2 2 (fresh [0, 0])
          [op.push 1, op.push 2, op.pop 0, op.push 3] = some (res, Q1) ∧
      run policy.caching_pointer 2 2 (fresh [0, 0])
          ([op.push 1, op.push 2, op.pop 0, op.push 3] ++ [op.push 4])
        = some (res ++ [(c, t)], Q2) ∧
      c = code_by_count 2 (net [op.push 1, op.push 2, op.pop 0, op.push 3] res) (op.push 4) ∧
      c ≠ QUEUEFAILURE ∧ c ≠ QUEUEAUTHORITYFAILURE ∧ c ≠ QUEUEARGUMENTFAILURE) ∧
    (run policy.caching_pointer 2 2 (fresh [0, 0])
        [op.push 1, op.push 2, op.pop 0, op.push 3, op.push 4]).map (fun r => r.1.map Prod.fst)
      = some [QUEUESUCCESS, QUEUESUCCESS, QUEUESUCCESS, QUEUESUCCESS, QUEUEISFULL] :=
  ⟨codes_track_count policy.caching_pointer 2 2 (by decide) (by decide) (by decide) [0, 0] rfl
      [op.push 1, op.push 2, op.pop 0, op.push 3] (op.push 4),
   by decide⟩

/-- C5: on a freshly constructed queue of capacity `C`, `1 ≤ C < 2 ^ 31`, under both
policies, the `C` pushes of `vs` all return QUEUESUCCESS, a further push returns
QUEUEISFULL, the next `C` pops all return QUEUESUCCESS and deliver the values of `vs` in
the order pushed, and a further pop returns QUEUEISEMPTY. -/
theorem fill_then_drain {T : Type} (pp : policy) (C fuel : Nat) (hC1 : 1 ≤ C)
    (hC : C < 2 ^ 31) (hfuel : 2 ≤ fuel) (init vs outs : List T) (w o : T)
    (hinit : init.length = C) (hvs : vs.length = C) (houts : outs.length = C) :
    observed pp C fuel (fresh init)
        (vs.map op.push ++ [op.push w] ++ outs.map op.pop ++ [op.pop o])
      = some (List.replicate C (QUEUESUCCESS, none) ++ [(QUEUEISFULL, none)]
              ++ vs.map (fun v => (QUEUESUCCESS, some v)) ++ [(QUEUEISEMPTY, none)]) := by
  obtain ⟨k, rfl⟩ : ∃ k, fuel = k + 2 := ⟨fuel - 2, by omega⟩
  obtain ⟨res, Q', hr, hz, _, _⟩ := run_fifo pp C k hC
    (vs.map op.push ++ [op.push w] ++ outs.map op.pop ++ [op.pop o]) (fresh init) 0 []
    (fresh_valid pp C init hinit) (fresh_holds C init)
    (Or.inr (by simp only [List.length_append, List.length_map, List.length_singleton,
                  List.length_nil]; omega))
  simp only [observed, hr, Option.map_some', hz]
  simp only [fifo_run_append, fifo_run_pushes C vs [] (by simp; omega), List.nil_append]
  have hfull : fifo_run C vs [op.push w] = ([(QUEUEISFULL, none)], vs) := by
    simp [fifo_run, fifo_step, hvs]
  simp only [hfull, fifo_run_pops C vs outs (by omega)]
  simp [fifo_run, fifo_step, hvs]

/-- Witness of C5: capacity 13 with the values 1..13, and capacity 4 with four values. -/
theorem fill_then_drain_witness :
    observed policy.caching_pointer 13 2 (fresh (List.replicate 13 0))
        ([1, 2, 3, 4, 5, 6, 7, 8, 9, 10, 11, 12, 13].map op.push ++ [op.push 0]
          ++ (List.replicate 13 0).map op.pop ++ [op.pop 0])
      = some (List.replicate 13 (QUEUESUCCESS, none) ++ [(QUEUEISFULL, none)]
              ++ [1, 2, 3, 4, 5, 6, 7, 8, 9, 10, 11, 12, 13].map (fun v => (QUEUESUCCESS, some v))
              ++ [(QUEUEISEMPTY, none)]) ∧
    observed policy.plain_pointer 4 2 (fresh [0, 0, 0, 0])
        ([0, 1, 2, 3].map op.push ++ [op.push 0] ++ [0, 0, 0, 0].map op.pop ++ [op.pop 0])
      = some (List.replicate 4 (QUEUESUCCESS, none) ++ [(QUEUEISFULL, none)]
              ++ [0, 1, 2, 3].map (fun v => (QUEUESUCCESS, some v)) ++ [(QUEUEISEMPTY, none)]) :=
  ⟨fill_then_drain policy.caching_pointer 13 2 (by decide) (by decide) (by decide)
      (List.replicate 13 0) [1, 2, 3, 4, 5, 6, 7, 8, 9, 10, 11, 12, 13] (List.replicate 13 0) 0 0
      (by decide) (by decide) (by decide),
   fill_then_drain policy.plain_pointer 4 2 (by decide) (by decide) (by decide)
      [0, 0, 0, 0] [0, 1, 2, 3] [0, 0, 0, 0] 0 0 (by decide) (by decide) (by decide)⟩

/-- C6: for a capacity `C` with `1 ≤ C < 2 ^ 31` (including 1) and both policies, in
every state reached from a freshly constructed queue by pushes and pops in which the
queue is empty (front cursor = back cursor), `push(v)` returns QUEUESUCCESS and the
pop that follows returns QUEUESUCCESS with output exactly `v` and leaves the queue
empty again; hence alternating push and pop any number of times only ever yields
QUEUESUCCESS, each pop delivering the value just pushed. -/
theorem push_pop_round_trip {T : Type} (pp : policy) (C fuel : Nat) (hC1 : 1 ≤ C)
    (hC : C < 2 ^ 31) (hfuel : 2 ≤ fuel) (init : List T) (hinit : init.length = C)
    (ops : List (op T)) (res : List (queuereturncode × T)) (Q : spsc T)
    (hreach : run pp C fuel (fresh init) ops = some (res, Q))
    (hempty : Q.pop_from.index = Q.push_to.index) (v out : T) :
    (∃ Q1 e Q2, push pp C fuel Q v = some (QUEUESUCCESS, Q1, e) ∧
      pop pp C fuel Q1 out = some (QUEUESUCCESS, Q2, v) ∧
      Q2.pop_from.index = Q2.push_to.index) ∧
    (∀ rounds : List (T × T),
      observed pp C fuel Q (alternate rounds) = some (alternate_observed rounds)) := by
  obtain ⟨k, rfl⟩ : ∃ k, fuel = k + 2 := ⟨fuel - 2, by omega⟩
  obtain ⟨res', Q', hr, hv, _, _⟩ :=
    run_valid pp C k hC ops (fresh init) (fresh_valid pp C init hinit)
  rw [hreach] at hr
  obtain ⟨_, rfl⟩ := Prod.mk.inj (Option.some.inj hr)
  constructor
  · obtain ⟨Q1, e, Q2, hp, hq, _, he2⟩ := round_trip_valid pp C k hC1 hC Q hv hempty v out
    exact ⟨Q1, e, Q2, hp, hq, he2⟩
  · intro rounds
    exact alternate_valid pp C k hC1 hC rounds Q hv hempty

/-- Witness of C6: capacity 1, after one push and one pop on a fresh queue, 42 is pushed
and popped back, and 32 further rounds succeed. -/
theorem push_pop_round_trip_witness :
    (∃ Q1 e Q2,
      push policy.caching_pointer 1 2
          ({ push_to := { index := 1, cache := 0 }, pop_from := { index := 1, cache := 1 },
             state := [0] } : spsc Nat) 42
        = some (QUEUESUCCESS, Q1, e) ∧
      pop policy.caching_pointer 1 2 Q1 0 = some (QUEUESUCCESS, Q2, 42) ∧
      Q2.pop_from.index = Q2.push_to.index) ∧
    (∀ rounds : List (Nat × Nat),
      observed policy.caching_pointer 1 2
          ({ push_to := { index := 1, cache := 0 }, pop_from := { index := 1, cache := 1 },
             state := [0] } : spsc Nat) (alternate rounds)
        = some (alternate_observed rounds)) :=
  push_pop_round_trip policy.caching_pointer 1 2 (by decide) (by decide) (by decide) [0] rfl
    [op.push 7, op.pop 0] [(QUEUESUCCESS, 0), (QUEUESUCCESS, 7)]
    { push_to := { index := 1, cache := 0 }, pop_from := { index := 1, cache := 1 }, state := [0] }
    (by decide) rfl 42 0

/-- C7: for a capacity `C` with `1 ≤ C < 2 ^ 31` and both policies, every sequence of
calls on a freshly constructed queue returns (with a recursion budget of 2), and in
every state so reached the wrap-aware occupancy `(back - front) mod 2 ^ 32` is at most
`C` (it is a natural number, so at least 0). -/
theorem occupancy_invariant {T : Type} (pp : policy) (C fuel : Nat) (hC1 : 1 ≤ C)
    (hC : C < 2 ^ 31) (init : List T) (hinit : init.length = C) (ops : List (op T))
    (res : List (queuereturncode × T)) (Q : spsc T)
    (hreach : run pp C fuel (fresh init) ops = some (res, Q)) :
    occupancy Q.push_to.index Q.pop_from.index ≤ C ∧
    (0 : Int) ≤ ((Q.push_to.index : Int) - (Q.pop_from.index : Int)) % 2 ^ 32 ∧
    ((Q.push_to.index : Int) - (Q.pop_from.index : Int)) % 2 ^ 32 ≤ (C : Int) ∧
    ∃ r, run pp C 2 (fresh init) ops = some r := by
  have hv := reach_valid pp C fuel hC init hinit ops res Q hreach
  have hocc := hv.2.2.2.1
  obtain ⟨res', Q', hr, _⟩ := run_valid pp C 0 hC ops (fresh init) (fresh_valid pp C init hinit)
  refine ⟨hocc, ?_, ?_, _, hr⟩
  · omega
  · unfold occupancy at hocc; omega

/-- Witness of C7: capacity 2 after push, push, pop, push, push. -/
theorem occupancy_invariant_witness :
    occupancy 3 1 ≤ 2 ∧
    (0 : Int) ≤ (((3 : Nat) : Int) - ((1 : Nat) : Int)) % 2 ^ 32 ∧
    (((3 : Nat) : Int) - ((1 : Nat) : Int)) % 2 ^ 32 ≤ ((2 : Nat) : Int) ∧
    ∃ r, run policy.caching_pointer 2 2 (fresh [0, 0])
      [op.push 1, op.push 2, op.pop 0, op.push 3, op.push 4] = some r :=
  occupancy_invariant policy.caching_pointer 2 2 (by decide) (by decide) [0, 0] rfl
    [op.push 1, op.push 2, op.pop 0, op.push 3, op.push 4]
    [(QUEUESUCCESS, 0), (QUEUESUCCESS, 0), (QUEUESUCCESS, 1), (QUEUESUCCESS, 0), (QUEUEISFULL, 4)]
    { push_to := { index := 3, cache := 1 }, pop_from := { index := 1, cache := 2 },
      state := [3, 2] }
    (by decide)

/-- C8: under the caching policy, for a capacity `C` with `1 ≤ C < 2 ^ 31` and every
state reached from a freshly constructed queue, a push that returns QUEUESUCCESS was made
when the occupancy computed from the real front cursor was strictly less than `C`, and
a pop that returns QUEUESUCCESS was made when that occupancy was strictly greater than
0. -/
theorem stale_snapshot_is_safe {T : Type} (C fuel : Nat) (_hC1 : 1 ≤ C) (hC : C < 2 ^ 31)
    (init : List T) (hinit : init.length = C) (ops : List (op T))
    (res : List (queuereturncode × T)) (Q : spsc T)
    (hreach : run policy.caching_pointer C fuel (fresh init) ops = some (res, Q)) :
    (∀ (budget : Nat) (v : T) (Q1 : spsc T) (e : T),
      push policy.caching_pointer C budget Q v = some (QUEUESUCCESS, Q1, e) →
      occupancy Q.push_to.index Q.pop_from.index < C) ∧
    (∀ (budget : Nat) (v : T) (Q1 : spsc T) (e : T),
      pop policy.caching_pointer C budget Q v = some (QUEUESUCCESS, Q1, e) →
      0 < occupancy Q.push_to.index Q.pop_from.index) := by
  have hv := reach_valid policy.caching_pointer C fuel hC init hinit ops res Q hreach
  constructor
  · intro budget v Q1 e h
    obtain ⟨Q2, _, _, hcase⟩ := push_valid policy.caching_pointer C budget Q v hC hv
    have h2 := step_mono policy.caching_pointer C 2 budget Q (op.push v) _ h
    simp only [step] at h2
    rcases hcase with ⟨_, hp, _, _⟩ | ⟨ho, _, _, _⟩
    · rw [hp] at h2; simp at h2
    · exact ho
  · intro budget v Q1 e h
    obtain ⟨Q2, _, _, hcase⟩ := pop_valid policy.caching_pointer C budget Q v hv
    rcases hcase with ⟨_, hp, _, _⟩ | ⟨ho, _, _, _⟩
    · rw [hp] at h; simp at h
    · exact ho

/-- Witness of C8: capacity 2 after push, pop; the producer's snapshot of the front
cursor is still 0 while the front cursor is 1. -/
theorem stale_snapshot_is_safe_witness :
    (∀ (budget : Nat) (v : Nat) (Q1 : spsc Nat) (e : Nat),
      push policy.caching_pointer 2 budget
        { push_to := { index := 1, cache := 0 }, pop_from := { index := 1, cache := 1 },
          state := [0, 0] } v = some (QUEUESUCCESS, Q1, e) →
      occupancy 1 1 < 2) ∧
    (∀ (budget : Nat) (v : Nat) (Q1 : spsc Nat) (e : Nat),
      pop policy.caching_pointer 2 budget
        { push_to := { index := 1, cache := 0 }, pop_from := { index := 1, cache := 1 },
          state := [0, 0] } v = some (QUEUESUCCESS, Q1, e) →
      0 < occupancy 1 1) :=
  stale_snapshot_is_safe 2 2 (by decide) (by decide) [0, 0] rfl [op.push 5, op.pop 0]
    [(QUEUESUCCESS, 0), (QUEUESUCCESS, 5)]
    { push_to := { index := 1, cache := 0 }, pop_from := { index := 1, cache := 1 },
      state := [0, 0] }
    (by decide)

/-- C9: for every queue state and both policies, if push returns QUEUEISFULL, or pop
returns QUEUEISEMPTY, then the back cursor, the front cursor, every slot of the array
and the caller's value are as before the call, and so is the other end's snapshot;
under the plain policy the queue is unchanged altogether, so that only the snapshot
owned by the calling end may differ under the caching policy. -/
theorem refused_call_changes_nothing {T : Type} (pp : policy) (C fuel : Nat)
    (Q Q1 : spsc T) (t t1 : T) :
    (push pp C fuel Q t = some (QUEUEISFULL, Q1, t1) →
      Q1.push_to.index = Q.push_to.index ∧ Q1.pop_from.index = Q.pop_from.index ∧
      Q1.state = Q.state ∧ t1 = t ∧ Q1.pop_from.cache = Q.pop_from.cache ∧
      (pp = policy.plain_pointer → Q1 = Q)) ∧
    (pop pp C fuel Q t = some (QUEUEISEMPTY, Q1, t1) →
      Q1.push_to.index = Q.push_to.index ∧ Q1.pop_from.index = Q.pop_from.index ∧
      Q1.state = Q.state ∧ t1 = t ∧ Q1.push_to.cache = Q.push_to.cache ∧
      (pp = policy.plain_pointer → Q1 = Q)) := by
  constructor
  · intro h
    obtain ⟨loc1, hi, hp, hcase⟩ := push_cases pp C fuel Q Q1 t t1 _ h
    rcases hcase with ⟨_, rfl, rfl⟩ | ⟨hc, _, _⟩
    · exact ⟨hi, rfl, rfl, rfl, rfl, fun hpp => by rw [hp hpp]⟩
    · cases hc
  · intro h
    obtain ⟨loc1, hi, hp, hcase⟩ := pop_cases pp C fuel Q Q1 t t1 _ h
    rcases hcase with ⟨_, rfl, rfl⟩ | ⟨hc, _, _⟩
    · exact ⟨rfl, hi, rfl, rfl, rfl, fun hpp => by rw [hp hpp]⟩
    · cases hc

/-- Witness of C9: a push refused by a full queue of capacity 2, and the pop refused by
a freshly constructed queue of capacity 16. -/
theorem refused_call_changes_nothing_witness :
    (({ push_to := { index := 2, cache := 0 }, pop_from := { index := 0, cache := 0 },
        state := [1, 2] } : spsc Nat).push_to.index = 2 ∧
     ({ push_to := { index := 2, cache := 0 }, pop_from := { index := 0, cache := 0 },
        state := [1, 2] } : spsc Nat).state = [1, 2] ∧ (9 : Nat) = 9) ∧
    ((fresh (List.replicate 16 0) : spsc Nat).pop_from.index = 0 ∧
     (fresh (List.replicate 16 0) : spsc Nat).state = List.replicate 16 0 ∧ (7 : Nat) = 7) :=
  And.intro
    (((refused_call_changes_nothing policy.caching_pointer 2 2
        ({ push_to := { index := 2, cache := 0 }, pop_from := { index := 0, cache := 0 },
           state := [1, 2] } : spsc Nat)
        { push_to := { index := 2, cache := 0 }, pop_from := { index := 0, cache := 0 },
          state := [1, 2] } 9 9).1 (by decide)).elim
      (fun a b => ⟨a, b.2.1, b.2.2.1⟩))
    (((refused_call_changes_nothing policy.caching_pointer 16 0
        (fresh (List.replicate 16 0) : spsc Nat) (fresh (List.replicate 16 0)) 7 7).2
        (by decide)).elim
      (fun _ b => ⟨b.1, b.2.1, b.2.2.1⟩))

/-- C10: with a capacity `C ≥ 1` and an array of `C` slots, when `push(v)` returns
QUEUESUCCESS at back cursor `b`, afterwards slot `b mod C` holds `v`, the caller's
location holds what that slot held before, every other slot is unchanged, the back
cursor is `(b + 1) mod 2 ^ 32` and the front cursor is unchanged; and when `pop` returns
QUEUESUCCESS at front cursor `f`, slot `f mod C` and the caller's location are swapped,
every other slot and the back cursor are unchanged and the front cursor is
`(f + 1) mod 2 ^ 32`. -/
theorem successful_exchange_effect {T : Type} (pp : policy) (C fuel : Nat) (hC1 : 1 ≤ C)
    (Q Q1 : spsc T) (hlen : Q.state.length = C) (v t1 : T) :
    (push pp C fuel Q v = some (QUEUESUCCESS, Q1, t1) →
      Q1.state[Q.push_to.index % C]? = some v ∧
      Q.state[Q.push_to.index % C]? = some t1 ∧
      (∀ j, j ≠ Q.push_to.index % C → Q1.state[j]? = Q.state[j]?) ∧
      Q1.state.length = C ∧
      Q1.push_to.index = (Q.push_to.index + 1) % 2 ^ 32 ∧
      Q1.pop_from.index = Q.pop_from.index) ∧
    (pop pp C fuel Q v = some (QUEUESUCCESS, Q1, t1) →
      Q1.state[Q.pop_from.index % C]? = some v ∧
      Q.state[Q.pop_from.index % C]? = some t1 ∧
      (∀ j, j ≠ Q.pop_from.index % C → Q1.state[j]? = Q.state[j]?) ∧
      Q1.state.length = C ∧
      Q1.pop_from.index = (Q.pop_from.index + 1) % 2 ^ 32 ∧
      Q1.push_to.index = Q.push_to.index) := by
  have hslot : ∀ i : Nat, i % C < Q.state.length := fun i => by
    rw [hlen]; exact Nat.mod_lt _ (by omega)
  constructor
  · intro h
    obtain ⟨loc1, _, _, hcase⟩ := push_cases pp C fuel Q Q1 v t1 _ h
    rcases hcase with ⟨hc, _, _⟩ | ⟨_, rfl, rfl⟩
    · cases hc
    · refine ⟨List.getElem?_set_self (hslot _), ?_, ?_, by simpa using hlen, rfl, rfl⟩
      · rw [List.getD_eq_getElem?_getD, List.getElem?_eq_getElem (hslot _)]; rfl
      · intro j hj
        exact List.getElem?_set_ne (Ne.symm hj)
  · intro h
    obtain ⟨loc1, _, _, hcase⟩ := pop_cases pp C fuel Q Q1 v t1 _ h
    rcases hcase with ⟨hc, _, _⟩ | ⟨_, rfl, rfl⟩
    · cases hc
    · refine ⟨List.getElem?_set_self (hslot _), ?_, ?_, by simpa using hlen, rfl, rfl⟩
      · rw [List.getD_eq_getElem?_getD, List.getElem?_eq_getElem (hslot _)]; rfl
      · intro j hj
        exact List.getElem?_set_ne (Ne.symm hj)

/-- Witness of C10: capacity 2, a push of 42 on a fresh queue and the pop that follows. -/
theorem successful_exchange_effect_witness :
    (({ push_to := { index := 1, cache := 0 }, pop_from := { index := 0, cache := 0 },
        state := [42, 0] } : spsc Nat).state[0 % 2]? = some 42 ∧
     (fresh [0, 0] : spsc Nat).state[0 % 2]? = some 0 ∧
     ({ push_to := { index := 1, cache := 0 }, pop_from := { index := 0, cache := 0 },
        state := [42, 0] } : spsc Nat).push_to.index = (0 + 1) % 2 ^ 32) ∧
    (({ push_to := { index := 1, cache := 0 }, pop_from := { index := 1, cache := 1 },
        state := [0, 0] } : spsc Nat).state[0 % 2]? = some 0 ∧
     ({ push_to := { index := 1, cache := 0 }, pop_from := { index := 0, cache := 0 },
        state := [42, 0] } : spsc Nat).state[0 % 2]? = some 42 ∧
     ({ push_to := { index := 1, cache := 0 }, pop_from := { index := 1, cache := 1 },
        state := [0, 0] } : spsc Nat).pop_from.index = (0 + 1) % 2 ^ 32) :=
  And.intro
    (((successful_exchange_effect policy.caching_pointer 2 2 (by decide)
        (fresh [0, 0] : spsc Nat)
        { push_to := { index := 1, cache := 0 }, pop_from := { index := 0, cache := 0 },
          state := [42, 0] } rfl 42 0).1 (by decide)).elim
      (fun a b => ⟨a, b.1, b.2.2.2.1⟩))
    (((successful_exchange_effect policy.caching_pointer 2 2 (by decide)
        ({ push_to := { index := 1, cache := 0 }, pop_from := { index := 0, cache := 0 },
           state := [42, 0] } : spsc Nat)
        { push_to := { index := 1, cache := 0 }, pop_from := { index := 1, cache := 1 },
          state := [0, 0] } rfl 0 42).2 (by decide)).elim
      (fun a b => ⟨a, b.1, b.2.2.2.1⟩))

/-! ## Spin wrappers -/

/-- Whenever `isfull` returns, it returns the comparison of the wrap-aware occupancy
with `C`. -/
theorem isfull_partial (C : Nat) (hC : C < 2 ^ 64) :
    ∀ (fuel l r : Nat) (b : Bool), l < 2 ^ 32 → isfull C fuel l r = some b →
      (b = true ↔ occupancy l r = C) := by
  intro fuel
  induction fuel with
  | zero => intro l r b _ h; simp [isfull] at h
  | succ n ih =>
    intro l r b hl h
    by_cases hlr : r ≤ l
    · rw [isfull_base _ _ _ _ hlr] at h
      have := isfull_base_iff C l r hl hlr hC
      rw [← Option.some.inj h]
      simpa using this
    · rw [isfull_rec _ _ _ _ (Nat.not_le.mp hlr)] at h
      have := ih _ _ b (shift_lt C l) h
      rwa [occupancy_shift] at this

/-- C13: for a capacity `C` with `1 ≤ C < 2 ^ 31` and 32-bit cursors whose wrap-aware
occupancy is at most `C`, if `back < front` under raw comparison then the pair shifted
by `-(C + 1)` modulo `2 ^ 32` satisfies `back' ≥ front'`; so `isfull<C>` returns with at
most one recursive call (a budget of 2), and returns true exactly when the occupancy
equals `C`. -/
theorem one_correction_suffices (C back front : Nat) (_hC1 : 1 ≤ C) (hC : C < 2 ^ 31)
    (hb : back < 2 ^ 32) (hf : front < 2 ^ 32) (hocc : occupancy back front ≤ C) :
    ((shift C back : Int) = ((back : Int) - ((C : Int) + 1)) % 2 ^ 32) ∧
    ((shift C front : Int) = ((front : Int) - ((C : Int) + 1)) % 2 ^ 32) ∧
    (back < front → shift C front ≤ shift C back) ∧
    (∃ b, isfull C 2 back front = some b ∧ (b = true ↔ occupancy back front = C)) ∧
    (front ≤ back → ∃ b, isfull C 1 back front = some b) := by
  refine ⟨by unfold shift to_ptr_size; omega, by unfold shift to_ptr_size; omega, ?_, ?_, ?_⟩
  · intro h
    unfold occupancy at hocc
    unfold shift to_ptr_size; omega
  · exact ⟨_, isfull_valid C 0 back front hC hb hf hocc, by simp⟩
  · intro h
    exact ⟨_, isfull_base C 0 back front h⟩

/-- Witness of C13: capacity 32, back cursor wrapped to 0, front cursor `2 ^ 32 - 32`
(the third check of the test "can test for full when back has overflowed but front
has not"). -/
theorem one_correction_suffices_witness :
    ((shift 32 0 : Int) = (((0 : Nat) : Int) - (((32 : Nat) : Int) + 1)) % 2 ^ 32) ∧
    ((shift 32 (2 ^ 32 - 32) : Int)
      = (((2 ^ 32 - 32 : Nat) : Int) - (((32 : Nat) : Int) + 1)) % 2 ^ 32) ∧
    (0 < 2 ^ 32 - 32 → shift 32 (2 ^ 32 - 32) ≤ shift 32 0) ∧
    (∃ b, isfull 32 2 0 (2 ^ 32 - 32) = some b ∧ (b = true ↔ occupancy 0 (2 ^ 32 - 32) = 32)) ∧
    (2 ^ 32 - 32 ≤ 0 → ∃ b, isfull 32 1 0 (2 ^ 32 - 32) = some b) :=
  one_correction_suffices 32 0 (2 ^ 32 - 32) (by decide) (by decide) (by decide) (by decide)
    (by decide)

/-- C14: with the capacity `2 ^ 31`, below `2 ^ 32`, the pair `back = 0`,
`front = 2 ^ 31` has occupancy `2 ^ 31`, at most the capacity, and `back < front`; after
one shift by `-(C + 1)` modulo `2 ^ 32` the pair is `(2 ^ 31 - 1, 2 ^ 32 - 1)`, still with
`back' < front'`; `isfull` does not return with one recursive call (budget 2) and
returns, true, with two (budget 3). -/
theorem one_correction_insufficient :
    2 ^ 31 < 2 ^ 32 ∧ occupancy 0 (2 ^ 31) ≤ 2 ^ 31 ∧ 0 < 2 ^ 31 ∧
    shift (2 ^ 31) 0 = 2 ^ 31 - 1 ∧ shift (2 ^ 31) (2 ^ 31) = 2 ^ 32 - 1 ∧
    shift (2 ^ 31) 0 < shift (2 ^ 31) (2 ^ 31) ∧
    isfull (2 ^ 31) 2 0 (2 ^ 31) = none ∧
    isfull (2 ^ 31) 3 0 (2 ^ 31) = some true := by
  decide

theorem occupancy_iterate_shift (C l r : Nat) :
    ∀ k : Nat, occupancy ((shift C)^[k] l) ((shift C)^[k] r) = occupancy l r := by
  intro k
  induction k with
  | zero => rfl
  | succ n ih =>
    rw [Function.iterate_succ_apply', Function.iterate_succ_apply', occupancy_shift, ih]

/-- When `isfull` returns, the base case was reached after some number `k` of shifts,
below the budget: the pair shifted `k` times is the first with `back ≥ front`. -/
theorem isfull_reaches (C : Nat) :
    ∀ (fuel l r : Nat) (b : Bool), isfull C fuel l r = some b →
      ∃ k, k < fuel ∧ (shift C)^[k] r ≤ (shift C)^[k] l ∧
        ∀ j, j < k → (shift C)^[j] l < (shift C)^[j] r := by
  intro fuel
  induction fuel with
  | zero => intro l r b h; simp [isfull] at h
  | succ n ih =>
    intro l r b h
    by_cases hlr : r ≤ l
    · exact ⟨0, by omega, hlr, fun j hj => by omega⟩
    · have hlt : l < r := Nat.not_le.mp hlr
      rw [isfull_rec _ _ _ _ hlt] at h
      obtain ⟨k, hk, hbase, hbefore⟩ := ih _ _ b h
      refine ⟨k + 1, by omega, ?_, ?_⟩
      · rw [Function.iterate_succ_apply, Function.iterate_succ_apply]; exact hbase
      · intro j hj
        cases j with
        | zero => exact hlt
        | succ j' =>
          rw [Function.iterate_succ_apply, Function.iterate_succ_apply]
          exact hbefore j' (by omega)

/-- C16: for a capacity `C` with `1 ≤ C < 2 ^ 32` and 32-bit cursors, if
`isfull<C>(back, front)` returns, then its base case was reached after some number
`k ≥ 0` of shifts by `-(C + 1)` modulo `2 ^ 32`, the value returned is true exactly when
`(back - front) mod 2 ^ 32 = C`, and shifting, any number of times, keeps the wrap-aware
difference of the pair. -/
theorem isfull_partial_correctness (C fuel back front : Nat) (b : Bool) (_hC1 : 1 ≤ C)
    (hC : C < 2 ^ 32) (hb : back < 2 ^ 32) (_hf : front < 2 ^ 32)
    (h : isfull C fuel back front = some b) :
    (b = true ↔ occupancy back front = C) ∧
    (b = true ↔ (((back : Int) - (front : Int)) % 2 ^ 32 = (C : Int))) ∧
    (∃ k, k < fuel ∧ (shift C)^[k] front ≤ (shift C)^[k] back ∧
      ∀ j, j < k → (shift C)^[j] back < (shift C)^[j] front) ∧
    (∀ v, (shift C v : Int) = ((v : Int) - ((C : Int) + 1)) % 2 ^ 32) ∧
    (∀ k, occupancy ((shift C)^[k] back) ((shift C)^[k] front) = occupancy back front) := by
  have h1 := isfull_partial C (by omega) fuel back front b hb h
  refine ⟨h1, ?_, isfull_reaches C fuel back front b h, ?_, occupancy_iterate_shift C back front⟩
  · rw [h1]; unfold occupancy; omega
  · intro v; unfold shift to_ptr_size; omega

/-- Witness of C16: `isfull<32>(31, 2 ^ 32 - 1)`, the check `isfull<32>(32+maxsize, maxsize)`
of the tests, returns true after one shift. -/
theorem isfull_partial_correctness_witness :
    (true = true ↔ occupancy 31 (2 ^ 32 - 1) = 32) ∧
    (true = true ↔ ((((31 : Nat) : Int) - ((2 ^ 32 - 1 : Nat) : Int)) % 2 ^ 32
      = ((32 : Nat) : Int))) ∧
    (∃ k, k < 2 ∧ (shift 32)^[k] (2 ^ 32 - 1) ≤ (shift 32)^[k] 31 ∧
      ∀ j, j < k → (shift 32)^[j] 31 < (shift 32)^[j] (2 ^ 32 - 1)) ∧
    (∀ v, (shift 32 v : Int) = ((v : Int) - (((32 : Nat) : Int) + 1)) % 2 ^ 32) ∧
    (∀ k, occupancy ((shift 32)^[k] 31) ((shift 32)^[k] (2 ^ 32 - 1))
      = occupancy 31 (2 ^ 32 - 1)) :=
  isfull_partial_correctness 32 2 31 (2 ^ 32 - 1) true (by decide) (by decide) (by decide)
    (by decide) (by decide)

/-! ## Capacities that divide the counter range -/

theorem seeded_valid {T : Type} (pp : policy) (C s : Nat) (hs : s < 2 ^ 32) (init : List T)
    (h : init.length = C) : valid pp C (seeded s init) := by
  refine ⟨hs, hs, h, by simp [seeded, occupancy], fun _ => ?_⟩
  simp only [seeded, occupancy]
  omega

theorem seeded_holds {T : Type} (C s : Nat) (hs : s < 2 ^ 32) (init : List T) :
    holds C (seeded s init) s [] := by
  refine ⟨?_, ?_, by simp, ?_⟩
  · simp only [seeded]; omega
  · simp only [seeded, List.length_nil]; omega
  · intro i hi; simp at hi

theorem pow_two_dvd_range (C k : Nat) (hk : C = 2 ^ k) (hC : C ≤ 2 ^ 30) : C ∣ 2 ^ 32 := by
  subst hk
  have hle : k ≤ 30 := (Nat.pow_le_pow_iff_right (by norm_num)).mp hC
  exact Nat.pow_dvd_pow 2 (by omega)

/-- C15: for a capacity `C` that is a power of two with `1 ≤ C ≤ 2 ^ 30`, both policies
and every 32-bit value `s`, starting from an empty queue whose cursors and snapshots all
equal `s`, every sequence of calls returns and is observed (codes and popped values)
exactly as the ideal FIFO queue bounded at `C`; and the slot index steps cyclically,
`(c + 1) mod 2 ^ 32 mod C = ((c mod C) + 1) mod C` for every `c`. -/
theorem power_of_two_wrap_safe {T : Type} (pp : policy) (C fuel k s : Nat) (hk : C = 2 ^ k)
    (_hC1 : 1 ≤ C) (hC : C ≤ 2 ^ 30) (hfuel : 2 ≤ fuel) (hs : s < 2 ^ 32) (init : List T)
    (hinit : init.length = C) (ops : List (op T)) :
    observed pp C fuel (seeded s init) ops = some (fifo_run C [] ops).1 ∧
    ∀ c : Nat, (c + 1) % 2 ^ 32 % C = ((c % C) + 1) % C := by
  have hdvd := pow_two_dvd_range C k hk hC
  obtain ⟨n, rfl⟩ : ∃ n, fuel = n + 2 := ⟨fuel - 2, by omega⟩
  constructor
  · obtain ⟨res, Q', hr, hz, _, _⟩ := run_fifo pp C n (by omega) ops (seeded s init) s []
      (seeded_valid pp C s hs init hinit) (seeded_holds C s hs init)
      (Or.inl (Nat.mod_eq_zero_of_dvd hdvd))
    simp only [observed, hr, Option.map_some', hz]
  · intro c
    rw [Nat.mod_mod_of_dvd _ hdvd, Nat.mod_add_mod]

/-- Witness of C15: capacity 8 seeded at `2 ^ 32 - 2`; three pushes carry the back cursor
past the maximum 32-bit value before the pops. -/
theorem power_of_two_wrap_safe_witness :
    observed policy.caching_pointer 8 2 (seeded (2 ^ 32 - 2) [0, 0, 0, 0, 0, 0, 0, 0])
        [op.push 1, op.push 2, op.push 3, op.pop 0, op.pop 0, op.pop 0, op.pop 0]
      = some (fifo_run 8 []
          [op.push 1, op.push 2, op.push 3, op.pop 0, op.pop 0, op.pop 0, op.pop 0]).1 ∧
    ∀ c : Nat, (c + 1) % 2 ^ 32 % 8 = ((c % 8) + 1) % 8 :=
  power_of_two_wrap_safe policy.caching_pointer 8 2 3 (2 ^ 32 - 2) (by decide) (by decide)
    (by decide) (by decide) (by decide) [0, 0, 0, 0, 0, 0, 0, 0] rfl
    [op.push 1, op.push 2, op.push 3, op.pop 0, op.pop 0, op.pop 0, op.pop 0]

/-! ## The two policies run sequentially -/

theorem run_policies_agree {T : Type} (C k : Nat) (hC : C < 2 ^ 31) (ops : List (op T)) :
    ∀ (Q Q' : spsc T), valid policy.caching_pointer C Q → valid policy.plain_pointer C Q' →
      Q.push_to.index = Q'.push_to.index → Q.pop_from.index = Q'.pop_from.index →
      Q.state = Q'.state →
      ∃ res Q1 Q1', run policy.caching_pointer C (k + 2) Q ops = some (res, Q1) ∧
        run policy.plain_pointer C (k + 2) Q' ops = some (res, Q1') ∧
        Q1.push_to.index = Q1'.push_to.index ∧ Q1.pop_from.index = Q1'.pop_from.index ∧
        Q1.state = Q1'.state := by
  induction ops with
  | nil => intro Q Q' _ _ hb hf hs; exact ⟨[], Q, Q', rfl, rfl, hb, hf, hs⟩
  | cons o os ih =>
    intro Q Q' hv hv' hb hf hs
    have hocc : Q.occupancy = Q'.occupancy := by simp only [spsc.occupancy, hb, hf]
    cases o with
    | push t =>
      obtain ⟨Q1, hv1, hf1, hcase⟩ := push_valid policy.caching_pointer C k Q t hC hv
      obtain ⟨Q1', hv1', hf1', hcase'⟩ := push_valid policy.plain_pointer C k Q' t hC hv'
      rcases hcase with ⟨ho, hp, hb1, hs1⟩ | ⟨ho, hp, hb1, hs1⟩ <;>
        rcases hcase' with ⟨ho', hp', hb1', hs1'⟩ | ⟨ho', hp', hb1', hs1'⟩
      · obtain ⟨res, Q2, Q2', hr, hr', h⟩ := ih Q1 Q1' hv1 hv1' (by rw [hb1, hb1', hb])
          (by rw [hf1, hf1', hf]) (by rw [hs1, hs1', hs])
        exact ⟨(QUEUEISFULL, t) :: res, Q2, Q2', by simp [run, step, hp, hr],
          by simp [run, step, hp', hr'], h⟩
      · omega
      · omega
      · obtain ⟨res, Q2, Q2', hr, hr', h⟩ := ih Q1 Q1' hv1 hv1' (by rw [hb1, hb1', hb])
          (by rw [hf1, hf1', hf]) (by rw [hs1, hs1', hs, hb])
        exact ⟨(QUEUESUCCESS, Q.state.getD (Q.push_to.index % C) t) :: res, Q2, Q2',
          by simp [run, step, hp, hr], by simp [run, step, hp', hr', hs, hb], h⟩
    | pop t =>
      obtain ⟨Q1, hv1, hb1, hcase⟩ := pop_valid policy.caching_pointer C (k + 2) Q t hv
      obtain ⟨Q1', hv1', hb1', hcase'⟩ := pop_valid policy.plain_pointer C (k + 2) Q' t hv'
      rcases hcase with ⟨ho, hp, hf1, hs1⟩ | ⟨ho, hp, hf1, hs1⟩ <;>
        rcases hcase' with ⟨ho', hp', hf1', hs1'⟩ | ⟨ho', hp', hf1', hs1'⟩
      · obtain ⟨res, Q2, Q2', hr, hr', h⟩ := ih Q1 Q1' hv1 hv1' (by rw [hb1, hb1', hb])
          (by rw [hf1, hf1', hf]) (by rw [hs1, hs1', hs])
        exact ⟨(QUEUEISEMPTY, t) :: res, Q2, Q2', by simp [run, step, hp, hr],
          by simp [run, step, hp', hr'], h⟩
      · omega
      · omega
      · obtain ⟨res, Q2, Q2', hr, hr', h⟩ := ih Q1 Q1' hv1 hv1' (by rw [hb1, hb1', hb])
          (by rw [hf1, hf1', hf]) (by rw [hs1, hs1', hs, hf])
        exact ⟨(QUEUESUCCESS, Q.state.getD (Q.pop_from.index % C) t) :: res, Q2, Q2',
          by simp [run, step, hp, hr], by simp [run, step, hp', hr', hs, hf], h⟩

/-- C17: for a capacity `C` with `1 ≤ C < 2 ^ 31` and every sequence of calls, the run on a
freshly constructed caching queue and the run on a freshly constructed plain queue both
return, with the same code and the same caller's value (so the same popped value) for
every call, and end with equal back cursor, front cursor and slot contents. -/
theorem caching_equals_plain {T : Type} (C fuel : Nat) (_hC1 : 1 ≤ C) (hC : C < 2 ^ 31)
    (hfuel : 2 ≤ fuel) (init : List T) (hinit : init.length = C) (ops : List (op T)) :
    ∃ res Qc Qp,
      run policy.caching_pointer C fuel (fresh init) ops = some (res, Qc) ∧
      run policy.plain_pointer C fuel (fresh init) ops = some (res, Qp) ∧
      Qc.push_to.index = Qp.push_to.index ∧ Qc.pop_from.index = Qp.pop_from.index ∧
      Qc.state = Qp.state := by
  obtain ⟨n, rfl⟩ : ∃ n, fuel = n + 2 := ⟨fuel - 2, by omega⟩
  exact run_policies_agree C n hC ops (fresh init) (fresh init)
    (fresh_valid _ C init hinit) (fresh_valid _ C init hinit) rfl rfl rfl

/-- Witness of C17: capacity 2 with push, push, push, pop, pop, pop, push. -/
theorem caching_equals_plain_witness :
    ∃ res Qc Qp,
      run policy.caching_pointer 2 2 (fresh [0, 0])
          [op.push 1, op.push 2, op.push 3, op.pop 0, op.pop 0, op.pop 0, op.push 4]
        = some (res, Qc) ∧
      run policy.plain_pointer 2 2 (fresh [0, 0])
          [op.push 1, op.push 2, op.push 3, op.pop 0, op.pop 0, op.pop 0, op.push 4]
        = some (res, Qp) ∧
      Qc.push_to.index = Qp.push_to.index ∧ Qc.pop_from.index = Qp.pop_from.index ∧
      Qc.state = Qp.state :=
  caching_equals_plain 2 2 (by decide) (by decide) (by decide) [0, 0] rfl
    [op.push 1, op.push 2, op.push 3, op.pop 0, op.pop 0, op.pop 0, op.push 4]

/-! ## Capacities up to `2 ^ 32 - 2` -/

end queue
